import Mathlib

/-!
# Verification of the Coatl compiler pipeline against its specification

Shallow embedding of the relevant parts of the Coatl compiler:
  * `src/tools/coatl_subset_to_ir.py`  (frontend: binop type resolution,
    struct-literal lowering, the `str`-typed let rewrite),
  * `src/tools/ir_to_x86_64_asm.py`    (backend: s-expression IR, the
    stack-machine code emitter, string-literal interning),
  * `src/tools/link_x86_64_elf.py`     (linker: relocation patching).

Python dicts are modelled as insertion-ordered association lists, machine
integers as `Nat`/`Int`, and fallible code as `Except String`.  Recursion
over the s-expression tree uses an explicit fuel parameter; running out of
fuel is an error, so every `Except.ok` result corresponds to a real run of
the Python code.
-/

/-- S-expression node, as produced by the backend's `parse_sexpr`
(`ir_to_x86_64_asm.py`): an atom or a list of nodes. -/
inductive Node where
  | atom : String → Node
  | list : List Node → Node

/-- Generic insertion-ordered association-list lookup
(models Python `dict.get` / `in`). -/
def alookup {α : Type} : List (String × α) → String → Option α
  | [], _ => none
  | (k, v) :: rest, key => if k = key then some v else alookup rest key

/-! ## Frontend: binary-operator type resolution
(`coatl_subset_to_ir.py`, `Parser._resolve_binop_type`, lines 636-645) -/

/-- `Parser._resolve_binop_type`: if both operand types are `i32`/`bool` the
result is `i32`; otherwise the first of (left, right) that is `i64`/`f32`/`f64`
wins; otherwise `i32`. -/
def resolveBinopType (leftTy rightTy : String) : String :=
  if (leftTy = "i32" ∨ leftTy = "bool") ∧ (rightTy = "i32" ∨ rightTy = "bool") then "i32"
  else if leftTy = "i64" ∨ leftTy = "f32" ∨ leftTy = "f64" then leftTy
  else if rightTy = "i64" ∨ rightTy = "f32" ∨ rightTy = "f64" then rightTy
  else "i32"

/-- Left-biased promotion: the left operand's type wins whenever it is a
promoted scalar (`i64`/`f32`/`f64`), regardless of the right operand.  This is
the rule the code actually implements, in contrast to the spec's table in
which `f32`/`f64` always beat `i64`. -/
def leftBiasedPromote (leftTy rightTy : String) : String :=
  if leftTy = "i64" ∨ leftTy = "f32" ∨ leftTy = "f64" then leftTy
  else if rightTy = "i64" ∨ rightTy = "f32" ∨ rightTy = "f64" then rightTy
  else "i32"

/-- Modelled from the spec: the rank order `i32/bool < i64 < f32 < f64`
underlying the spec's binop type-resolution table (§4.2). -/
def specRank : String → Nat
  | "i64" => 1
  | "f32" => 2
  | "f64" => 3
  | _ => 0

/-- Modelled from the spec: the binop type-resolution table of §4.2 — the
operand type of higher rank wins, `i32`/`bool` cells resolve to `i32`. -/
def specBinopTable (leftTy rightTy : String) : String :=
  if specRank leftTy = 0 ∧ specRank rightTy = 0 then "i32"
  else if specRank rightTy ≤ specRank leftTy then leftTy
  else rightTy

/-! ## Linker: relocation patching
(`link_x86_64_elf.py`, `link_single_obj`, lines 104-120) -/

/-- One `.rela.text` entry (format `<QQq`: unsigned offset, packed info split
into type and symbol index, signed addend). -/
structure Rela where
  rOffset : Nat
  rType : Nat
  rSym : Nat
  rAddend : Int

/-- `R_X86_64_PC32`. -/
def rPC32 : Nat := 2

/-- `R_X86_64_PLT32`. -/
def rPLT32 : Nat := 4

/-- `struct.pack("<i", val)`: the four little-endian bytes of a 32-bit signed
value (bytes of `val mod 2^32`). -/
def int32LE (v : Int) : List Nat :=
  let u := (v % 4294967296).toNat
  [u % 256, u / 256 % 256, u / 65536 % 256, u / 16777216 % 256]

/-- Python slice assignment `text[off:off+4] = bs` on a byte list. -/
def patchBytes (text : List Nat) (off : Nat) (bs : List Nat) : List Nat :=
  text.take off ++ bs ++ text.drop (off + bs.length)

/-- The body of the relocation loop of `link_single_obj` for one entry:
reject relocation types other than `R_X86_64_PC32`/`R_X86_64_PLT32`, resolve
the symbol, compute `S + A - P` with `P = text_vaddr + r_offset`, reject
values outside `[-2^31, 2^31)`, and patch four little-endian bytes at
`r_offset` into the text image.  `symAddrs` is the resolved address of each
symbol-table entry (`sym_addr(syms[r_sym])`). -/
def applyRela (textVaddr : Nat) (symAddrs : List Nat) (r : Rela) (text : List Nat) :
    Except String (List Nat) :=
  if r.rType ≠ rPC32 ∧ r.rType ≠ rPLT32 then
    .error "unsupported relocation type"
  else
    match symAddrs.get? r.rSym with
    | none => .error "symbol index out of range"
    | some s =>
      let p : Int := (textVaddr : Int) + r.rOffset
      let val : Int := (s : Int) + r.rAddend - p
      if -2147483648 ≤ val ∧ val ≤ 2147483647 then
        .ok (patchBytes text r.rOffset (int32LE val))
      else
        .error "relocation overflow"

/-- The whole relocation loop over `.rela.text`. -/
def applyRelas (textVaddr : Nat) (symAddrs : List Nat) (relas : List Rela)
    (text : List Nat) : Except String (List Nat) :=
  relas.foldlM (fun t r => applyRela textVaddr symAddrs r t) text

/-! ## Backend: string-literal decoding and interning
(`ir_to_x86_64_asm.py`, `decode_string_token` and
`lower_ir_to_asm_text` lines 647-660) -/

/-- UTF-8 encoding of one code point (the range reachable from `\xHH`
escapes and ASCII text; the IR wire format is 7-bit ASCII per the spec). -/
def utf8Bytes (cp : Nat) : List Nat :=
  if cp < 128 then [cp]
  else if cp < 2048 then [192 + cp / 64, 128 + cp % 64]
  else [cp]

/-- Hex digit value, both cases. -/
def hexVal (c : Char) : Option Nat :=
  let n := c.toNat
  if 48 ≤ n ∧ n ≤ 57 then some (n - 48)
  else if 97 ≤ n ∧ n ≤ 102 then some (n - 87)
  else if 65 ≤ n ∧ n ≤ 70 then some (n - 55)
  else none

/-- The escape processing performed by Python's `unicode_escape` codec,
restricted to the escape forms the Coatl lexer can produce
(`\n \t \r \" \\ \xHH`, plus `\0`); a malformed `\x` escape or a trailing
lone backslash is an error (Python raises), and any other byte stands for
itself. -/
def unescapeChars : List Char → Except String (List Nat)
  | [] => .ok []
  | '\\' :: 'n' :: rest => do let t ← unescapeChars rest; .ok (10 :: t)
  | '\\' :: 't' :: rest => do let t ← unescapeChars rest; .ok (9 :: t)
  | '\\' :: 'r' :: rest => do let t ← unescapeChars rest; .ok (13 :: t)
  | '\\' :: '\\' :: rest => do let t ← unescapeChars rest; .ok (92 :: t)
  | '\\' :: '"' :: rest => do let t ← unescapeChars rest; .ok (34 :: t)
  | '\\' :: '0' :: rest => do let t ← unescapeChars rest; .ok (0 :: t)
  | '\\' :: 'x' :: h1 :: h2 :: rest =>
    match hexVal h1, hexVal h2 with
    | some a, some b => do let t ← unescapeChars rest; .ok (utf8Bytes (16 * a + b) ++ t)
    | _, _ => .error "invalid hex escape"
  | '\\' :: 'x' :: _ => .error "invalid hex escape"
  | ['\\'] => .error "incomplete escape"
  | '\\' :: c :: rest => do let t ← unescapeChars rest; .ok (92 :: utf8Bytes c.toNat ++ t)
  | c :: rest => do let t ← unescapeChars rest; .ok (utf8Bytes c.toNat ++ t)

/-- `decode_string_token`: the token must be quote-delimited; the inner text
is unescaped to a byte sequence. -/
def decodeStringToken (tok : String) : Except String (List Nat) :=
  let cs := tok.data
  if cs.length < 2 ∨ cs.head? ≠ some '"' ∨ cs.getLast? ≠ some '"' then
    .error "invalid string token"
  else
    unescapeChars (cs.drop 1).dropLast

/-- Deduplication keeping first occurrences: the key order of the Python
dict `str_tokens` after inserting every collected token. -/
def dedupAux (seen : List String) : List String → List String
  | [] => []
  | t :: rest =>
    if seen.contains t then dedupAux seen rest
    else t :: dedupAux (t :: seen) rest

/-- All distinct string tokens in first-occurrence (insertion) order. -/
def dedupList (toks : List String) : List String :=
  dedupAux [] toks

/-- The address-assignment loop of `lower_ir_to_asm_text` starting at a given
`next_addr`: each distinct token is decoded and given the current address,
and the address advances by the decoded length plus one NUL byte. -/
def internFrom : List String → Nat → Except String (List (String × Nat))
  | [], _ => .ok []
  | t :: rest, addr => do
    let d ← decodeStringToken t
    let tail ← internFrom rest (addr + d.length + 1)
    .ok ((t, addr) :: tail)

/-- `string_addrs` as computed by `lower_ir_to_asm_text` lines 647-660: one
entry per distinct token (Python-dict insertion order), addresses from 65536. -/
def internStrings (toks : List String) : Except String (List (String × Nat)) :=
  internFrom (dedupList toks) 65536

/-- Decoded length of a token, defaulting to 0 (used only to state the
closed-form address formula; on the `ok` path decoding always succeeds). -/
def declen (t : String) : Nat :=
  match decodeStringToken t with
  | .ok d => d.length
  | .error _ => 0

/-! ## Frontend: struct-literal lowering
(`coatl_subset_to_ir.py`, `Parser.parse_struct_init_stmt_ir`, lines 341-367) -/

/-- Python dict insertion with overwrite: an existing key keeps its position
and gets the new value, a new key is appended. -/
def insertVal (vals : List (String × String)) (k v : String) : List (String × String) :=
  match vals with
  | [] => [(k, v)]
  | (k0, v0) :: rest => if k0 = k then (k0, v) :: rest else (k0, v0) :: insertVal rest k v

/-- The `vals` dict built while scanning the written fields of a struct
literal, in source order (later occurrences of a field overwrite earlier
ones, as for a Python dict). -/
def buildVals (written : List (String × String)) : List (String × String) :=
  written.foldl (fun acc kv => insertVal acc kv.1 kv.2) []

/-- The value attached to the last occurrence of field `f` in the written
field list. -/
def lastVal (written : List (String × String)) (f : String) : Option String :=
  written.foldl (fun acc kv => if kv.1 = f then some kv.2 else acc) none

/-- `parse_struct_init_stmt_ir` after the expressions have been parsed:
`fields` are the struct's declared fields, `written` the `fld: expr` pairs in
source order.  Any written field not declared is an error; any declared field
never written is an error; otherwise one let binding per declared field is
emitted in declaration order, each bound to the (last) written value. -/
def structInitLets (name : String) (fields : List String)
    (written : List (String × String)) : Except String (List (String × String)) :=
  match (buildVals written).find? (fun kv => !(fields.contains kv.1)) with
  | some kv => .error ("unknown field " ++ kv.1)
  | none =>
    match fields.find? (fun f => (alookup (buildVals written) f).isNone) with
    | some f => .error ("missing field " ++ f)
    | none =>
      .ok (fields.map (fun f => (name ++ "__" ++ f, (alookup (buildVals written) f).getD "")))

/-! ## Backend: the function-body code emitter
(`ir_to_x86_64_asm.py`, class `FnEmitter`)

The emitter state mirrors `FnEmitter`: the emitted body lines, the
`stack_depth` counter and the label counter.  `callDepths` is ghost
instrumentation: it records the value of the `stack_depth` counter at each
emitted `call` instruction, which is exactly what spec properties 2 and 3
quantify over; it influences nothing else. -/

/-- Per-function immutable emitter context (`FnEmitter.__init__` inputs and
the derived `vars`/`var_off` maps). -/
structure Env where
  fnName : String
  stringAddrs : List (String × Nat)
  fnNames : List String
  signatures : List (String × (List String × String))
  vars : List (String × String)
  varOff : List (String × Nat)

/-- Mutable emitter state: `self.lines`, `self.stack_depth`,
`self.label_id`, plus the ghost trace of depths at `call` instructions. -/
structure FnSt where
  lines : List String
  depth : Int
  labelId : Nat
  callDepths : List Int

/-- `self.emit(s)`. -/
def emitL (s : String) (st : FnSt) : FnSt :=
  { st with lines := st.lines ++ [s] }

/-- Adjust the `stack_depth` counter. -/
def bumpDepth (n : Int) (st : FnSt) : FnSt :=
  { st with depth := st.depth + n }

/-- `self.push_rax()`. -/
def pushRax (st : FnSt) : FnSt :=
  bumpDepth 1 (emitL "  push rax" st)

/-- `self.pop_reg(reg)`. -/
def popReg (r : String) (st : FnSt) : FnSt :=
  bumpDepth (-1) (emitL ("  pop " ++ r) st)

/-- Append a pure instruction sequence. -/
def appendLines (ls : List String) (st : FnSt) : FnSt :=
  { st with lines := st.lines ++ ls }

/-- `self.new_label(prefix)`. -/
def newLabel (fnName pfx : String) (st : FnSt) : String × FnSt :=
  let i := st.labelId + 1
  (".L_" ++ fnName ++ "_" ++ pfx ++ "_" ++ toString i, { st with labelId := i })

/-- `as_atom`: raises `LowerError` on a list node. -/
def asAtom : Node → Except String String
  | .atom s => .ok s
  | .list _ => .error "expected atom"

/-- `as_list`: raises `LowerError` on an atom. -/
def asList : Node → Except String (List Node)
  | .atom _ => .error "expected list node"
  | .list xs => .ok xs

/-- Python list indexing `e[i]` (out of range raises `IndexError`). -/
def nth (es : List Node) (i : Nat) : Except String Node :=
  match es.get? i with
  | some n => .ok n
  | none => .error "index out of range"

/-- `as_atom(e[i])`. -/
def nthAtom (es : List Node) (i : Nat) : Except String String :=
  match nth es i with
  | .error e => .error e
  | .ok n => asAtom n

/-- Comparison operators. -/
def isCmpOp (op : String) : Bool :=
  op = "eq" || op = "ne" || op = "lt" || op = "gt" || op = "le" || op = "ge"

/-- Signed-condition suffix for integer comparisons. -/
def ccOf (op : String) : String :=
  if op = "eq" then "e" else if op = "ne" then "ne" else if op = "lt" then "l"
  else if op = "gt" then "g" else if op = "le" then "le" else "ge"

/-- Unsigned-condition suffix for float comparisons. -/
def ccOfF (op : String) : String :=
  if op = "eq" then "e" else if op = "ne" then "ne" else if op = "lt" then "b"
  else if op = "gt" then "a" else if op = "le" then "be" else "ae"

/-- `FnEmitter.emit_binary_i32`. -/
def emitBinaryI32 (op : String) : Except String (List String) :=
  if op = "add" then .ok ["  add eax, ecx"]
  else if op = "sub" then .ok ["  sub eax, ecx"]
  else if op = "mul" then .ok ["  imul eax, ecx"]
  else if op = "div" then .ok ["  cdq", "  idiv ecx"]
  else if isCmpOp op then
    .ok ["  cmp eax, ecx", "  set" ++ ccOf op ++ " al", "  movzx eax, al"]
  else if op = "and" then .ok ["  and eax, ecx"]
  else if op = "or" then .ok ["  or eax, ecx"]
  else .error ("unsupported i32 binary op: " ++ op)

/-- `FnEmitter.emit_binary_i64` (note: no `and`/`or` case). -/
def emitBinaryI64 (op : String) : Except String (List String) :=
  if op = "add" then .ok ["  add rax, rcx"]
  else if op = "sub" then .ok ["  sub rax, rcx"]
  else if op = "mul" then .ok ["  imul rax, rcx"]
  else if op = "div" then .ok ["  cqo", "  idiv rcx"]
  else if isCmpOp op then
    .ok ["  cmp rax, rcx", "  set" ++ ccOf op ++ " al", "  movzx eax, al"]
  else .error ("unsupported i64 binary op: " ++ op)

/-- `FnEmitter.emit_binary_f32`. -/
def emitBinaryF32 (op : String) : Except String (List String) :=
  let pre := ["  movd xmm0, eax", "  movd xmm1, ecx"]
  if op = "add" then .ok (pre ++ ["  addss xmm0, xmm1", "  movd eax, xmm0"])
  else if op = "sub" then .ok (pre ++ ["  subss xmm0, xmm1", "  movd eax, xmm0"])
  else if op = "mul" then .ok (pre ++ ["  mulss xmm0, xmm1", "  movd eax, xmm0"])
  else if op = "div" then .ok (pre ++ ["  divss xmm0, xmm1", "  movd eax, xmm0"])
  else if isCmpOp op then
    .ok (pre ++ ["  ucomiss xmm0, xmm1", "  set" ++ ccOfF op ++ " al", "  movzx eax, al"])
  else .error ("unsupported f32 binary op: " ++ op)

/-- `FnEmitter.emit_binary_f64`. -/
def emitBinaryF64 (op : String) : Except String (List String) :=
  let pre := ["  movq xmm0, rax", "  movq xmm1, rcx"]
  if op = "add" then .ok (pre ++ ["  addsd xmm0, xmm1", "  movq rax, xmm0"])
  else if op = "sub" then .ok (pre ++ ["  subsd xmm0, xmm1", "  movq rax, xmm0"])
  else if op = "mul" then .ok (pre ++ ["  mulsd xmm0, xmm1", "  movq rax, xmm0"])
  else if op = "div" then .ok (pre ++ ["  divsd xmm0, xmm1", "  movq rax, xmm0"])
  else if isCmpOp op then
    .ok (pre ++ ["  ucomisd xmm0, xmm1", "  set" ++ ccOfF op ++ " al", "  movzx eax, al"])
  else .error ("unsupported f64 binary op: " ++ op)

/-- The Python code converts a float literal's text to its IEEE-754 bit
pattern with `struct.pack`; the numeric conversion is irrelevant to every
property below and is abstracted as a textual marker. -/
def floatBitsText (width v : String) : String :=
  width ++ "bits(" ++ v ++ ")"

/-- `ARG_REGS64`. -/
def argRegs64 : List String := ["rdi", "rsi", "rdx", "rcx", "r8", "r9"]

/-- `XMM_REGS`. -/
def xmmRegs : List String :=
  ["xmm0", "xmm1", "xmm2", "xmm3", "xmm4", "xmm5", "xmm6", "xmm7"]

/-- Float parameter classes. -/
def isFloatTy (t : String) : Bool :=
  t = "f32" || t = "f64"

/-- Python `s.startswith(pfx)`, via character lists (kernel-reducible). -/
def strStarts (pfx s : String) : Bool :=
  pfx.data.isPrefixOf s.data

/-- `emit_call` lines 422-425: the declared parameter types and return type;
an unknown callee (intrinsic) defaults to all-`i32` parameters returning
`i32`. -/
def paramTypesFor (env : Env) (fn : String) (args : List Node) :
    List String × String :=
  match alookup env.signatures fn with
  | some sig => sig
  | none => (args.map (fun _ => "i32"), "i32")

/-- The call's argument count matches the callee's declared parameter count
(always true for an unknown callee).  All IR the frontend produces
satisfies this. -/
def arityOk (env : Env) (fn : String) (args : List Node) : Bool :=
  (paramTypesFor env fn args).1.length == args.length

/-- The class assigned to each argument position: `param_types[i]` when in
range, else `"i32"` (`emit_call` line 431). -/
def classList : List String → List Node → List String
  | _, [] => []
  | [], _ :: as => "i32" :: classList [] as
  | t :: ts, _ :: as => t :: classList ts as

/-- `stack_args = max(0, n_int-6) + max(0, n_float-8)` computed from the
per-argument classes (`emit_call` lines 437-442); `Nat` subtraction is the
`max(0, ·)`. -/
def stackArgs (env : Env) (fn : String) (args : List Node) : Nat :=
  let cls := classList (paramTypesFor env fn args).1 args
  ((cls.filter (fun t => !(isFloatTy t))).length - 6) +
    ((cls.filter isFloatTy).length - 8)

/-- The argument-evaluation loop of `emit_call` (lines 452-454):
`for arg in reversed(args): self.emit_expr(arg); self.push_rax()`. -/
def emitArgsRev (emitE : Node → FnSt → Except String FnSt) :
    List Node → FnSt → Except String FnSt
  | [], st => .ok st
  | a :: rest, st =>
    match emitArgsRev emitE rest st with
    | .error e => .error e
    | .ok st1 =>
      match emitE a st1 with
      | .error e => .error e
      | .ok st2 => .ok (pushRax st2)

/-- The register-popping loop of `emit_call` (lines 458-478): walk the
declared parameter types with saturating integer/float register counters;
arguments beyond the sixth integer or eighth float register are left on
the stack. -/
def popLoop : List String → Nat → Nat → FnSt → FnSt
  | [], _, _, st => st
  | ty :: rest, ci, cf, st =>
    if isFloatTy ty then
      if cf < 8 then
        let st1 := popReg "rax" st
        let st2 := emitL ((if ty = "f32" then "  movd " else "  movq ") ++
          ((xmmRegs.get? cf).getD "") ++
          (if ty = "f32" then ", eax" else ", rax")) st1
        popLoop rest ci (cf + 1) st2
      else popLoop rest ci cf st
    else
      if ci < 6 then popLoop rest (ci + 1) cf (popReg ((argRegs64.get? ci).getD "") st)
      else popLoop rest ci cf st

/-- Emit the `call` instruction and record the current `stack_depth` in the
ghost trace. -/
def recordCall (fn : String) (st : FnSt) : FnSt :=
  { st with lines := st.lines ++ ["  call " ++ fn],
            callDepths := st.callDepths ++ [st.depth] }

/-- `FnEmitter.emit_call`, parameterized by the expression emitter used for
the arguments: unknown-callee check, alignment padding, reversed argument
evaluation, register pops, the `call`, the float-return transfer, and the
stack cleanup. -/
def emitCallGen (emitE : Node → FnSt → Except String FnSt) (env : Env)
    (fn : String) (args : List Node) (st : FnSt) : Except String FnSt :=
  if ¬ env.fnNames.contains fn ∧ ¬ strStarts "__" fn then
    .error ("unknown function call: " ++ fn)
  else
    let retTy := (paramTypesFor env fn args).2
    let stackN := stackArgs env fn args
    let needPad := (st.depth + (stackN : Int)) % 2 = 1
    let st1 := if needPad then bumpDepth 1 (emitL "  sub rsp, 8" st) else st
    match emitArgsRev emitE args st1 with
    | .error e => .error e
    | .ok st2 =>
      let st3 := popLoop (paramTypesFor env fn args).1 0 0 st2
      let st4 := recordCall fn st3
      let st5 :=
        if retTy = "f32" then emitL "  movd eax, xmm0" st4
        else if retTy = "f64" then emitL "  movq rax, xmm0" st4
        else st4
      let cleanup := stackN + (if needPad then 1 else 0)
      .ok (if cleanup ≠ 0 then
             bumpDepth (-(cleanup : Int))
               (emitL ("  add rsp, " ++ toString (cleanup * 8)) st5)
           else st5)

/-- `FnEmitter.emit_expr`, with an explicit fuel for the recursion (running
out of fuel is an error, so every `ok` result is a faithful run). -/
def emitExpr (env : Env) : Nat → Node → FnSt → Except String FnSt
  | 0, _, _ => .error "out of fuel"
  | Nat.succ fuel, expr, st =>
    match asList expr with
    | .error e => .error e
    | .ok es =>
      match nthAtom es 0 with
      | .error e => .error e
      | .ok tag =>
        if tag = "int" then
          match nthAtom es 1 with
          | .error e => .error e
          | .ok v => .ok (emitL ("  mov eax, " ++ v) st)
        else if tag = "int_i64" then
          match nthAtom es 1 with
          | .error e => .error e
          | .ok v => .ok (emitL ("  mov rax, " ++ v) st)
        else if tag = "float_f32" then
          match nthAtom es 1 with
          | .error e => .error e
          | .ok v => .ok (emitL ("  mov eax, " ++ floatBitsText "f32" v) st)
        else if tag = "float_f64" then
          match nthAtom es 1 with
          | .error e => .error e
          | .ok v => .ok (emitL ("  mov rax, " ++ floatBitsText "f64" v) st)
        else if tag = "bool" then
          match nthAtom es 1 with
          | .error e => .error e
          | .ok v => .ok (emitL ("  mov eax, " ++ v) st)
        else if tag = "ident" then
          match nthAtom es 1 with
          | .error e => .error e
          | .ok name =>
            match alookup env.varOff name with
            | none => .error ("unknown local: " ++ name)
            | some off =>
              match alookup env.vars name with
              | none => .error ("unknown local: " ++ name)
              | some ty =>
                .ok (emitL (if ty = "i64" ∨ ty = "f64" then
                              "  mov rax, qword ptr [rbp-" ++ toString off ++ "]"
                            else
                              "  mov eax, dword ptr [rbp-" ++ toString off ++ "]") st)
        else if tag = "string" then
          match nthAtom es 1 with
          | .error e => .error e
          | .ok tok =>
            match alookup env.stringAddrs tok with
            | none => .error "missing string literal address"
            | some a => .ok (emitL ("  mov eax, " ++ toString a) st)
        else if tag = "binary" then
          match nthAtom es 1 with
          | .error e => .error e
          | .ok op =>
            let operands : Except String (String × Node × Node) :=
              if es.length = 5 then
                match nthAtom es 2 with
                | .error e => .error e
                | .ok ty =>
                  match nth es 3, nth es 4 with
                  | .ok l, .ok r => .ok (ty, l, r)
                  | .error e, _ => .error e
                  | _, .error e => .error e
              else
                match nth es 2, nth es 3 with
                | .ok l, .ok r => .ok ("i32", l, r)
                | .error e, _ => .error e
                | _, .error e => .error e
            match operands with
            | .error e => .error e
            | .ok (ty, lhs, rhs) =>
              match emitExpr env fuel lhs st with
              | .error e => .error e
              | .ok st1 =>
                match emitExpr env fuel rhs (pushRax st1) with
                | .error e => .error e
                | .ok st3 =>
                  let st4 := popReg "rax" (emitL "  mov rcx, rax" st3)
                  match (if ty = "i64" then emitBinaryI64 op
                         else if ty = "f32" then emitBinaryF32 op
                         else if ty = "f64" then emitBinaryF64 op
                         else emitBinaryI32 op) with
                  | .error e => .error e
                  | .ok ls => .ok (appendLines ls st4)
        else if tag = "call" then
          match nthAtom es 1 with
          | .error e => .error e
          | .ok fn => emitCallGen (emitExpr env fuel) env fn (es.drop 2) st
        else .error ("unsupported expr: " ++ tag)

/-- `FnEmitter.emit_block`, parameterized by the statement emitter. -/
def emitBlockGen (emitS : Node → FnSt → Except String FnSt) (block : Node)
    (st : FnSt) : Except String FnSt :=
  match asList block with
  | .error e => .error e
  | .ok bs =>
    match nthAtom bs 0 with
    | .error e => .error e
    | .ok tag =>
      if tag = "block" then (bs.drop 1).foldlM (fun st s => emitS s st) st
      else .error "expected block"

/-- The store of an expression result into a local's frame slot, shared by
the `let` and `assign` cases. -/
def storeLocal (env : Env) (name : String) (st : FnSt) : Except String FnSt :=
  match alookup env.varOff name with
  | none => .error ("unknown local: " ++ name)
  | some off =>
    match alookup env.vars name with
    | none => .error ("unknown local: " ++ name)
    | some ty =>
      .ok (emitL (if ty = "i64" ∨ ty = "f64" then
                    "  mov qword ptr [rbp-" ++ toString off ++ "], rax"
                  else
                    "  mov dword ptr [rbp-" ++ toString off ++ "], eax") st)

/-- `FnEmitter.emit_stmt`, with explicit fuel. -/
def emitStmt (env : Env) (retLabel : String) : Nat → Node → FnSt → Except String FnSt
  | 0, _, _ => .error "out of fuel"
  | Nat.succ fuel, stmt, st =>
    match asList stmt with
    | .error e => .error e
    | .ok ss =>
      match nthAtom ss 0 with
      | .error e => .error e
      | .ok tag =>
        if tag = "let" then
          match nthAtom ss 1 with
          | .error e => .error e
          | .ok name =>
            match nth ss 3 with
            | .error e => .error e
            | .ok valExpr =>
              match emitExpr env fuel valExpr st with
              | .error e => .error e
              | .ok st1 => storeLocal env name st1
        else if tag = "assign" then
          match nthAtom ss 1 with
          | .error e => .error e
          | .ok name =>
            match nth ss 2 with
            | .error e => .error e
            | .ok valExpr =>
              match emitExpr env fuel valExpr st with
              | .error e => .error e
              | .ok st1 => storeLocal env name st1
        else if tag = "return" then
          match nth ss 1 with
          | .error e => .error e
          | .ok e1 =>
            match emitExpr env fuel e1 st with
            | .error e => .error e
            | .ok st1 => .ok (emitL ("  jmp " ++ retLabel) st1)
        else if tag = "expr" then
          match nth ss 1 with
          | .error e => .error e
          | .ok e1 => emitExpr env fuel e1 st
        else if tag = "if" then
          let p1 := newLabel env.fnName "else" st
          let p2 := newLabel env.fnName "ifend" p1.2
          match nth ss 1 with
          | .error e => .error e
          | .ok cond =>
            match emitExpr env fuel cond p2.2 with
            | .error e => .error e
            | .ok st1 =>
              let st2 := emitL ("  jz " ++ p1.1) (emitL "  test eax, eax" st1)
              match nth ss 2 with
              | .error e => .error e
              | .ok thenB =>
                match emitBlockGen (emitStmt env retLabel fuel) thenB st2 with
                | .error e => .error e
                | .ok st3 =>
                  let st4 := emitL (p1.1 ++ ":") (emitL ("  jmp " ++ p2.1) st3)
                  match ss.get? 3 with
                  | none => .ok (emitL (p2.1 ++ ":") st4)
                  | some sn =>
                    match asList sn with
                    | .error e => .error e
                    | .ok eb =>
                      match nthAtom eb 0 with
                      | .error e => .error e
                      | .ok etag =>
                        if etag = "else" then
                          match nth eb 1 with
                          | .error e => .error e
                          | .ok elseB =>
                            match emitBlockGen (emitStmt env retLabel fuel) elseB st4 with
                            | .error e => .error e
                            | .ok st5 => .ok (emitL (p2.1 ++ ":") st5)
                        else .ok (emitL (p2.1 ++ ":") st4)
        else if tag = "while" then
          let p1 := newLabel env.fnName "while_cond" st
          let p2 := newLabel env.fnName "while_end" p1.2
          let st0 := emitL (p1.1 ++ ":") p2.2
          match nth ss 1 with
          | .error e => .error e
          | .ok cond =>
            match emitExpr env fuel cond st0 with
            | .error e => .error e
            | .ok st1 =>
              let st2 := emitL ("  jz " ++ p2.1) (emitL "  test eax, eax" st1)
              match nth ss 2 with
              | .error e => .error e
              | .ok body =>
                match emitBlockGen (emitStmt env retLabel fuel) body st2 with
                | .error e => .error e
                | .ok st3 => .ok (emitL (p2.1 ++ ":") (emitL ("  jmp " ++ p1.1) st3))
        else .error ("unsupported stmt: " ++ tag)

/-- `FnEmitter.emit_function` lines 614-617: the body is emitted from a
fresh state (`self.lines = []; self.stack_depth = 0`). -/
def emitFunctionBody (env : Env) (retLabel : String) (fuel : Nat)
    (block : Node) : Except String FnSt :=
  emitBlockGen (emitStmt env retLabel fuel) block ⟨[], 0, 0, []⟩

/-! ## Backend: string-literal scanning
(`ir_to_x86_64_asm.py`, `walk_expr_for_strings`, lines 127-149) -/

/-- Python `out[tok] = None` on an insertion-ordered key set. -/
def dictInsertKey (acc : List String) (t : String) : List String :=
  if acc.contains t then acc else acc ++ [t]

/-- `walk_expr_for_strings`: collect the tokens of `string` nodes, recursing
into `binary`/`unary`/`call` operands; every other node kind (including
`string_typed`) is silently ignored. -/
def walkStrings : Nat → Node → List String → Except String (List String)
  | 0, _, _ => .error "out of fuel"
  | Nat.succ fuel, expr, acc =>
    match asList expr with
    | .error e => .error e
    | .ok es =>
      match nthAtom es 0 with
      | .error e => .error e
      | .ok tag =>
        if tag = "string" then
          match nthAtom es 1 with
          | .error e => .error e
          | .ok tok => .ok (dictInsertKey acc tok)
        else if tag = "binary" then
          if es.length = 5 then
            match nth es 3, nth es 4 with
            | .ok l, .ok r =>
              match walkStrings fuel l acc with
              | .error e => .error e
              | .ok acc1 => walkStrings fuel r acc1
            | .error e, _ => .error e
            | _, .error e => .error e
          else
            match nth es 2, nth es 3 with
            | .ok l, .ok r =>
              match walkStrings fuel l acc with
              | .error e => .error e
              | .ok acc1 => walkStrings fuel r acc1
            | .error e, _ => .error e
            | _, .error e => .error e
        else if tag = "unary" then
          match nth es 3 with
          | .error e => .error e
          | .ok sub => walkStrings fuel sub acc
        else if tag = "call" then
          (es.drop 2).foldlM (fun a n => walkStrings fuel n a) acc
        else .ok acc

/-! ## Frontend: the `str`-typed let rewrite
(`coatl_subset_to_ir.py`, `Parser.parse_stmt_ir`, lines 258-262) -/

/-- Python `s.replace(pat, rep, 1)` on character lists (for a non-empty
pattern): replace the first occurrence of `pat` by `rep`. -/
def replaceFirst : List Char → List Char → List Char → List Char
  | [], _, _ => []
  | c :: rest, pat, rep =>
    if pat.isPrefixOf (c :: rest) then rep ++ (c :: rest).drop pat.length
    else c :: replaceFirst rest pat rep

/-- Substring test: some suffix starts with `pat`. -/
def hasSubstr (pat : List Char) : List Char → Bool
  | [] => pat.isEmpty
  | c :: rest => pat.isPrefixOf (c :: rest) || hasSubstr pat rest

/-- The pattern `"(string "`. -/
def strPatChars : List Char := "(string ".data

/-- The replacement `"(string_typed "`. -/
def strTypedChars : List Char := "(string_typed ".data

/-- The `let` statement IR text built by `parse_stmt_ir` (lines 259-262):
for a `str`-typed let, the first occurrence of `(string ` in the
initializer's IR text is rewritten to `(string_typed `. -/
def letStmtIR (name ty expr : List Char) : List Char :=
  "        (let ".data ++ name ++ [' '] ++ ty ++ ['\n'] ++
  (if ty = "str".data then replaceFirst expr strPatChars strTypedChars else expr) ++
  "        )\n".data

/-! ## Verification-side definitions -/

/-- The register pops performed by `popLoop` on a parameter-type list
starting from the given saturating counters. -/
def popCount : List String → Nat → Nat → Nat
  | [], _, _ => 0
  | ty :: rest, ci, cf =>
    if isFloatTy ty then
      if cf < 8 then popCount rest ci (cf + 1) + 1 else popCount rest ci cf
    else
      if ci < 6 then popCount rest (ci + 1) cf + 1 else popCount rest ci cf

/-- Every ghost call-depth recorded between two states is even (old entries
may be anything). -/
def cdOK (st st2 : FnSt) : Prop :=
  ∀ d ∈ st2.callDepths, d ∈ st.callDepths ∨ d % 2 = 0

/-- A state transition that preserves the `stack_depth` counter and records
only even call depths. -/
def Pres (st st2 : FnSt) : Prop :=
  st2.depth = st.depth ∧ cdOK st st2

/-- Well-formed expression at a given fuel: every `call` reachable by the
emitter's own recursion has an argument count matching the callee's declared
parameter count.  All IR produced by the frontend satisfies this. -/
def wfExpr (env : Env) : Nat → Node → Bool
  | 0, _ => false
  | Nat.succ fuel, expr =>
    match expr with
    | .list (.atom "binary" :: t) =>
      (match (if (Node.atom "binary" :: t).length = 5 then
                ((Node.atom "binary" :: t).get? 3, (Node.atom "binary" :: t).get? 4)
              else
                ((Node.atom "binary" :: t).get? 2, (Node.atom "binary" :: t).get? 3)) with
       | (some l, some r) => wfExpr env fuel l && wfExpr env fuel r
       | _ => true)
    | .list (.atom "call" :: .atom fn :: args) =>
      arityOk env fn args && args.all (fun a => wfExpr env fuel a)
    | _ => true

/-- Well-formedness of a block given a statement predicate. -/
def wfBlockWith (wfS : Node → Bool) : Node → Bool
  | .list (.atom "block" :: stmts) => stmts.all wfS
  | _ => true

/-- Well-formed statement at a given fuel (arity condition on every call
reachable by the emitter's recursion). -/
def wfStmt (env : Env) : Nat → Node → Bool
  | 0, _ => false
  | Nat.succ fuel, stmt =>
    match stmt with
    | .list (.atom "let" :: rest) =>
      (match rest.get? 2 with | some v => wfExpr env fuel v | none => true)
    | .list (.atom "assign" :: rest) =>
      (match rest.get? 1 with | some v => wfExpr env fuel v | none => true)
    | .list (.atom "return" :: rest) =>
      (match rest.get? 0 with | some v => wfExpr env fuel v | none => true)
    | .list (.atom "expr" :: rest) =>
      (match rest.get? 0 with | some v => wfExpr env fuel v | none => true)
    | .list (.atom "if" :: rest) =>
      (match rest.get? 0 with | some c => wfExpr env fuel c | none => true) &&
      (match rest.get? 1 with | some b => wfBlockWith (wfStmt env fuel) b | none => true) &&
      (match rest.get? 2 with
       | some (.list (.atom "else" :: erest)) =>
         (match erest.get? 0 with
          | some b => wfBlockWith (wfStmt env fuel) b
          | none => true)
       | _ => true)
    | .list (.atom "while" :: rest) =>
      (match rest.get? 0 with | some c => wfExpr env fuel c | none => true) &&
      (match rest.get? 1 with | some b => wfBlockWith (wfStmt env fuel) b | none => true)
    | _ => true

/-- Well-formed function body. -/
def wfBlock (env : Env) (fuel : Nat) (b : Node) : Bool :=
  wfBlockWith (wfStmt env fuel) b

/-- A minimal emitter context for concrete runs. -/
def env0 : Env := ⟨"main", [], [], [], [], []⟩

/-- The fresh emitter state. -/
def st0 : FnSt := ⟨[], 0, 0, []⟩

/-- An emitter context declaring `f` with a single `i32` parameter, used to
run the emitter on an arity-mismatched call (the pipeline never checks call
arity, so such calls are really emitted). -/
def envMis : Env := ⟨"main", [], ["f"], [("f", (["i32"], "i32"))], [], []⟩

/-! ## Claim theorems -/

/-- C2, counterexample: the spec's promotion table says `i64` (left) with
`f32` (right) resolves to `f32`, but `_resolve_binop_type` returns `i64`
(the left operand wins); likewise for `i64` with `f64`. -/
theorem coatl_C2_counterexample :
    resolveBinopType "i64" "f32" = "i64" ∧ specBinopTable "i64" "f32" = "f32" ∧
    resolveBinopType "i64" "f32" ≠ "f32" ∧ resolveBinopType "i64" "f64" ≠ "f64" := by
  refine ⟨by decide, by decide, by decide, by decide⟩

/-- C2, amended: binary-operator type resolution is left-biased — the first
operand type in left-right order that is `i64`/`f32`/`f64` wins (so `i64`
beats a float on its right); it agrees with the spec's table only when the
left operand's rank is not smaller. -/
theorem coatl_C2_left_biased_promotion :
    (∀ l r, resolveBinopType l r = leftBiasedPromote l r) ∧
    resolveBinopType "i64" "f32" = "i64" ∧ resolveBinopType "i64" "f64" = "i64" := by
  refine ⟨fun l r => ?_, by decide, by decide⟩
  unfold resolveBinopType leftBiasedPromote
  by_cases h1 : (l = "i32" ∨ l = "bool") ∧ (r = "i32" ∨ r = "bool")
  · have hl : ¬ (l = "i64" ∨ l = "f32" ∨ l = "f64") := by
      rcases h1.1 with h | h <;> subst h <;> decide
    have hr : ¬ (r = "i64" ∨ r = "f32" ∨ r = "f64") := by
      rcases h1.2 with h | h <;> subst h <;> decide
    rw [if_pos h1, if_neg hl, if_neg hr]
  · rw [if_neg h1]

/-- C1: the backend's expression emitter has no case for `array_alloc` at
all — instead of emitting the bump-allocation sequence the spec describes,
it raises `LowerError("unsupported expr: array_alloc")` on every such node. -/
theorem coatl_C1_array_alloc_lower_error :
    ∀ (env : Env) (fuel : Nat) (st : FnSt) (rest : List Node),
      emitExpr env (fuel + 1) (Node.list (Node.atom "array_alloc" :: rest)) st =
        Except.error "unsupported expr: array_alloc" := by
  intro env fuel st rest
  rfl

/-- C4, counterexample: a `binary` node with the unknown explicit type
annotation `i128` is not rejected — the emitter silently falls back to the
`i32` instruction table and succeeds. -/
theorem coatl_C4_counterexample :
    emitExpr env0 3 (Node.list [Node.atom "binary", Node.atom "add", Node.atom "i128",
        Node.list [Node.atom "int", Node.atom "1"],
        Node.list [Node.atom "int", Node.atom "2"]]) st0 =
      Except.ok ⟨["  mov eax, 1", "  push rax", "  mov eax, 2", "  mov rcx, rax",
                  "  pop rax", "  add eax, ecx"], 0, 0, []⟩ := by
  rfl

/-- C4, amended: every expression node of unknown kind is rejected with a
lowering error, but a `binary` node whose explicit type annotation is not
`i64`/`f32`/`f64` is not rejected — it is lowered exactly as if it were
unannotated (the `i32` path). -/
theorem coatl_C4_unknown_kind_and_binop_ty :
    (∀ (env : Env) (fuel : Nat) (st : FnSt) (tag : String) (rest : List Node),
        tag ∉ ["int", "int_i64", "float_f32", "float_f64", "bool", "ident",
               "string", "binary", "call"] →
        emitExpr env (fuel + 1) (Node.list (Node.atom tag :: rest)) st =
          Except.error ("unsupported expr: " ++ tag)) ∧
    (∀ (env : Env) (fuel : Nat) (st : FnSt) (op ty : String) (l r : Node),
        ty ≠ "i64" → ty ≠ "f32" → ty ≠ "f64" →
        emitExpr env (fuel + 1)
            (Node.list [Node.atom "binary", Node.atom op, Node.atom ty, l, r]) st =
          emitExpr env (fuel + 1)
            (Node.list [Node.atom "binary", Node.atom op, l, r]) st) := by
  constructor
  · intro env fuel st tag rest h
    simp only [List.mem_cons, List.not_mem_nil, or_false, not_or] at h
    obtain ⟨h1, h2, h3, h4, h5, h6, h7, h8, h9⟩ := h
    simp [emitExpr, asList, nthAtom, nth, asAtom, h1, h2, h3, h4, h5, h6, h7, h8, h9]
  · intro env fuel st op ty l r hty1 hty2 hty3
    simp [emitExpr, asList, nthAtom, nth, asAtom, hty1, hty2, hty3]

/-- C4, witness: a concrete unknown node kind (`array_get`) is rejected, and
a concrete unknown annotation (`i128`) lowers exactly like the unannotated
node. -/
theorem coatl_C4_witness :
    emitExpr env0 1 (Node.list [Node.atom "array_get", Node.atom "i32"]) st0 =
      Except.error ("unsupported expr: " ++ "array_get") ∧
    emitExpr env0 3 (Node.list [Node.atom "binary", Node.atom "add", Node.atom "i128",
        Node.list [Node.atom "int", Node.atom "1"],
        Node.list [Node.atom "int", Node.atom "2"]]) st0 =
      emitExpr env0 3 (Node.list [Node.atom "binary", Node.atom "add",
        Node.list [Node.atom "int", Node.atom "1"],
        Node.list [Node.atom "int", Node.atom "2"]]) st0 :=
  ⟨coatl_C4_unknown_kind_and_binop_ty.1 env0 0 st0 "array_get" [Node.atom "i32"]
      (by decide),
   coatl_C4_unknown_kind_and_binop_ty.2 env0 2 st0 "add" "i128"
      (Node.list [Node.atom "int", Node.atom "1"])
      (Node.list [Node.atom "int", Node.atom "2"])
      (by decide) (by decide) (by decide)⟩

/-- C3, counterexample: the evaluation code of argument 2 (`mov eax, 2`) is
emitted before the code of argument 1 (`mov eax, 1`), so side effects run
right-to-left, not left-to-right as the claim states. -/
theorem coatl_C3_counterexample :
    emitExpr env0 3 (Node.list [Node.atom "call", Node.atom "__f",
        Node.list [Node.atom "int", Node.atom "1"],
        Node.list [Node.atom "int", Node.atom "2"]]) st0 =
      Except.ok ⟨["  mov eax, 2", "  push rax", "  mov eax, 1", "  push rax",
                  "  pop rdi", "  pop rsi", "  call __f"], 0, 0, [0]⟩ ∧
    ¬ (["  mov eax, 2", "  push rax", "  mov eax, 1", "  push rax",
        "  pop rdi", "  pop rsi", "  call __f"].indexOf "  mov eax, 1" <
       ["  mov eax, 2", "  push rax", "  mov eax, 1", "  push rax",
        "  pop rdi", "  pop rsi", "  call __f"].indexOf "  mov eax, 2") := by
  refine ⟨rfl, by decide⟩

/-- C3, amended: call arguments are evaluated in reverse source order, each
result pushed after its evaluation — equivalently, the argument loop is a
monadic fold of evaluate-then-push over the reversed argument list, so for
`i < j` argument `j`'s code runs before argument `i`'s (side effects run
right-to-left). -/
theorem coatl_C3_reverse_order_eval :
    ∀ (emitE : Node → FnSt → Except String FnSt) (args : List Node) (st : FnSt),
      emitArgsRev emitE args st =
        args.reverse.foldlM (fun s a => Except.map pushRax (emitE a s)) st := by
  intro emitE args
  induction args with
  | nil => intro st; rfl
  | cons a rest ih =>
    intro st
    rw [List.reverse_cons, List.foldlM_append, show emitArgsRev emitE (a :: rest) st =
      (match emitArgsRev emitE rest st with
       | .error e => .error e
       | .ok st1 =>
         match emitE a st1 with
         | .error e => .error e
         | .ok st2 => .ok (pushRax st2)) from rfl, ih st]
    cases hF : rest.reverse.foldlM (fun s a => Except.map pushRax (emitE a s)) st with
    | error e => rfl
    | ok st1 =>
      show (match emitE a st1 with
            | .error e => Except.error e
            | .ok st2 => Except.ok (pushRax st2)) = _
      cases hE : emitE a st1 with
      | error e =>
        simp only [List.foldlM, bind, Except.bind, Except.map, hE, pure, Except.pure]
      | ok st2 =>
        simp only [List.foldlM, bind, Except.bind, Except.map, hE, pure, Except.pure]

/-- The empty pattern occurs in every string. -/
theorem hasSubstr_nil_pat (l : List Char) : hasSubstr [] l = true := by
  induction l with
  | nil => rfl
  | cons c rest ih => simp [hasSubstr, List.isPrefixOf]

/-- A substring of the right part occurs in an append. -/
theorem hasSubstr_append_right (p xs ys : List Char) (h : hasSubstr p ys = true) :
    hasSubstr p (xs ++ ys) = true := by
  induction xs with
  | nil => simpa using h
  | cons c rest ih =>
    show hasSubstr p (c :: (rest ++ ys)) = true
    simp only [hasSubstr, Bool.or_eq_true]
    exact Or.inr ih

/-- A substring of the left part occurs in an append. -/
theorem hasSubstr_append_left (p xs ys : List Char) (h : hasSubstr p xs = true) :
    hasSubstr p (xs ++ ys) = true := by
  induction xs with
  | nil =>
    have hp : p = [] := by simpa [hasSubstr, List.isEmpty_iff] using h
    subst hp
    exact hasSubstr_nil_pat ys
  | cons c rest ih =>
    simp only [hasSubstr, Bool.or_eq_true] at h
    show hasSubstr p (c :: (rest ++ ys)) = true
    simp only [hasSubstr, Bool.or_eq_true]
    rcases h with h | h
    · left
      rw [List.isPrefixOf_iff_prefix] at h ⊢
      exact h.trans (List.prefix_append (c :: rest) ys)
    · exact Or.inr (ih h)

/-- A pattern occurs at the head of `pat ++ zs`. -/
theorem hasSubstr_self_prefix (p zs : List Char) : hasSubstr p (p ++ zs) = true := by
  cases p with
  | nil => exact hasSubstr_nil_pat zs
  | cons c rest =>
    show hasSubstr (c :: rest) (c :: (rest ++ zs)) = true
    simp only [hasSubstr, Bool.or_eq_true]
    left
    rw [List.isPrefixOf_iff_prefix]
    exact List.prefix_append (c :: rest) zs

/-- If a non-empty pattern occurs, the replacement occurs after
`replaceFirst`. -/
theorem replaceFirst_has (p rep : List Char) (hp : p ≠ []) :
    ∀ l, hasSubstr p l = true → hasSubstr rep (replaceFirst l p rep) = true := by
  intro l
  induction l with
  | nil =>
    intro h
    exact absurd (by simpa [hasSubstr, List.isEmpty_iff] using h) hp
  | cons c rest ih =>
    intro h
    by_cases hpre : p.isPrefixOf (c :: rest) = true
    · rw [show replaceFirst (c :: rest) p rep =
        rep ++ (c :: rest).drop p.length from by rw [replaceFirst, if_pos hpre]]
      exact hasSubstr_self_prefix rep _
    · rw [show replaceFirst (c :: rest) p rep =
        c :: replaceFirst rest p rep from by rw [replaceFirst, if_neg hpre]]
      simp only [hasSubstr, Bool.or_eq_true] at h ⊢
      rcases h with h | h
      · exact absurd h hpre
      · exact Or.inr (ih h)

/-- C10: for a `let NAME : str = …;` statement the frontend rewrites the
first `(string ` occurrence of the initializer's IR text to
`(string_typed ` — a node kind outside the spec's IR grammar — and the
backend has no case for it: the string scanner silently ignores a
`string_typed` node, and the expression emitter raises a lowering error on
every such node. -/
theorem coatl_C10_string_typed :
    ∀ (name expr : List Char) (env : Env) (fuel : Nat) (st : FnSt)
      (rest : List Node) (acc : List String),
      (hasSubstr strPatChars expr = true →
        hasSubstr strTypedChars (letStmtIR name ("str".data) expr) = true) ∧
      walkStrings (fuel + 1) (Node.list (Node.atom "string_typed" :: rest)) acc =
        Except.ok acc ∧
      emitExpr env (fuel + 1) (Node.list (Node.atom "string_typed" :: rest)) st =
        Except.error "unsupported expr: string_typed" := by
  intro name expr env fuel st rest acc
  refine ⟨?_, rfl, rfl⟩
  intro h
  have h2 : hasSubstr strTypedChars (replaceFirst expr strPatChars strTypedChars) = true :=
    replaceFirst_has strPatChars strTypedChars (by decide) expr h
  unfold letStmtIR
  rw [if_pos rfl]
  simp only [List.append_assoc]
  exact hasSubstr_append_right _ ("        (let ".data) _
    (hasSubstr_append_right _ name _ (hasSubstr_append_right _ [' '] _
      (hasSubstr_append_right _ ("str".data) _ (hasSubstr_append_right _ ['\n'] _
        (hasSubstr_append_left _ _ ("        )\n".data) h2)))))

/-- C10, witness: a concrete `str`-typed let initializer containing a string
literal is rewritten to contain `(string_typed `, and the backend errors on
a concrete `string_typed` node. -/
theorem coatl_C10_witness :
    hasSubstr strTypedChars
      (letStmtIR ("s".data) ("str".data) ("          (string \"hi\")\n".data)) = true ∧
    walkStrings 1 (Node.list [Node.atom "string_typed", Node.atom "\"hi\""]) [] =
      Except.ok [] ∧
    emitExpr env0 1 (Node.list [Node.atom "string_typed", Node.atom "\"hi\""]) st0 =
      Except.error "unsupported expr: string_typed" :=
  ⟨(coatl_C10_string_typed ("s".data) ("          (string \"hi\")\n".data) env0 0 st0
      [Node.atom "\"hi\""] []).1 (by decide),
   (coatl_C10_string_typed ("s".data) ("          (string \"hi\")\n".data) env0 0 st0
      [Node.atom "\"hi\""] []).2.1,
   (coatl_C10_string_typed ("s".data) ("          (string \"hi\")\n".data) env0 0 st0
      [Node.atom "\"hi\""] []).2.2⟩

/-- The interning loop keys its result by exactly the tokens it was given,
in order. -/
theorem internFrom_map_fst :
    ∀ (l : List String) (a : Nat) (res : List (String × Nat)),
      internFrom l a = Except.ok res → res.map Prod.fst = l := by
  intro l
  induction l with
  | nil =>
    intro a res h
    simp only [internFrom] at h
    cases h
    rfl
  | cons t rest ih =>
    intro a res h
    simp only [internFrom] at h
    cases hd : decodeStringToken t with
    | error e => rw [hd] at h; simp [bind, Except.bind] at h
    | ok d =>
      rw [hd] at h
      simp only [bind, Except.bind] at h
      cases ht : internFrom rest (a + d.length + 1) with
      | error e => rw [ht] at h; simp at h
      | ok tail =>
        rw [ht] at h
        simp only at h
        cases h
        simpa using ih (a + d.length + 1) tail ht

/-- Shifting the fold accumulator of the address-size sum. -/
theorem foldl_declen_shift :
    ∀ (xs : List (String × Nat)) (b : Nat),
      xs.foldl (fun acc p => acc + declen p.1 + 1) b =
        b + xs.foldl (fun acc p => acc + declen p.1 + 1) 0 := by
  intro xs
  induction xs with
  | nil => intro b; simp
  | cons x rest ih =>
    intro b
    simp only [List.foldl_cons]
    rw [ih (b + declen x.1 + 1), ih (0 + declen x.1 + 1)]
    omega

/-- Closed form of the interning loop's addresses: the `i`-th assigned
address is the start address plus the decoded sizes (plus one NUL each) of
all earlier entries. -/
theorem internFrom_addr :
    ∀ (l : List String) (a : Nat) (res : List (String × Nat)),
      internFrom l a = Except.ok res →
      ∀ i (h : i < res.length),
        (res.get ⟨i, h⟩).2 =
          a + (res.take i).foldl (fun acc p => acc + declen p.1 + 1) 0 := by
  intro l
  induction l with
  | nil =>
    intro a res h
    simp only [internFrom] at h
    cases h
    intro i hi
    simp at hi
  | cons t rest ih =>
    intro a res h
    simp only [internFrom] at h
    cases hd : decodeStringToken t with
    | error e => rw [hd] at h; simp [bind, Except.bind] at h
    | ok d =>
      rw [hd] at h
      simp only [bind, Except.bind] at h
      cases ht : internFrom rest (a + d.length + 1) with
      | error e => rw [ht] at h; simp at h
      | ok tail =>
        rw [ht] at h
        simp only at h
        cases h
        intro i hi
        cases i with
        | zero => simp
        | succ j =>
          have hj : j < tail.length := by simpa using hi
          have := ih (a + d.length + 1) tail ht j hj
          simp only [List.get_cons_succ, List.take_succ_cons, List.foldl_cons]
          rw [this, foldl_declen_shift ((tail.take j)) (0 + declen t + 1)]
          have hdl : declen t = d.length := by simp [declen, hd]
          omega

/-- Tokens produced by `dedupAux` never lie in the seen set. -/
theorem mem_dedupAux :
    ∀ (toks seen : List String) (t : String),
      t ∈ dedupAux seen toks → seen.contains t = false := by
  intro toks
  induction toks with
  | nil => intro seen t h; simp [dedupAux] at h
  | cons t0 rest ih =>
    intro seen t h
    by_cases hc : seen.contains t0
    · rw [show dedupAux seen (t0 :: rest) = dedupAux seen rest from by
        rw [dedupAux, if_pos hc]] at h
      exact ih seen t h
    · rw [show dedupAux seen (t0 :: rest) = t0 :: dedupAux (t0 :: seen) rest from by
        rw [dedupAux, if_neg hc]] at h
      rcases List.mem_cons.mp h with h | h
      · subst h
        exact Bool.eq_false_iff.mpr hc
      · have := ih (t0 :: seen) t h
        simp only [List.contains_cons, Bool.or_eq_false_iff] at this
        exact this.2

/-- `dedupAux` yields a duplicate-free list. -/
theorem dedupAux_nodup : ∀ (toks seen : List String), (dedupAux seen toks).Nodup := by
  intro toks
  induction toks with
  | nil => intro seen; simp [dedupAux]
  | cons t0 rest ih =>
    intro seen
    by_cases hc : seen.contains t0
    · rw [show dedupAux seen (t0 :: rest) = dedupAux seen rest from by
        rw [dedupAux, if_pos hc]]
      exact ih seen
    · rw [show dedupAux seen (t0 :: rest) = t0 :: dedupAux (t0 :: seen) rest from by
        rw [dedupAux, if_neg hc]]
      refine List.nodup_cons.mpr ⟨fun hmem => ?_, ih (t0 :: seen)⟩
      have := mem_dedupAux rest (t0 :: seen) t0 hmem
      simp at this

/-- C7, counterexample: the raw tokens `"a"` and `"\x61"` decode to the same
byte sequence `[0x61]`, yet the backend interns them separately and assigns
them distinct addresses (65536 and 65538) — interning is per raw token, not
per decoded byte sequence. -/
theorem coatl_C7_counterexample :
    internStrings ["\"a\"", "\"\\x61\""] =
      Except.ok [("\"a\"", 65536), ("\"\\x61\"", 65538)] ∧
    decodeStringToken "\"a\"" = Except.ok [97] ∧
    decodeStringToken "\"\\x61\"" = Except.ok [97] ∧
    (65536 : Nat) ≠ 65538 :=
  ⟨rfl, rfl, rfl, by decide⟩

/-- C7, amended: string literals are interned per distinct raw token: the
address table has exactly one entry per distinct token in first-occurrence
(insertion) order, and addresses are assigned deterministically starting at
65536, each entry advancing by its decoded length plus one; two occurrences
of the same token share one address, but distinct tokens with equal decoded
byte sequences receive distinct addresses. -/
theorem coatl_C7_interning_per_token :
    ∀ (toks : List String) (l : List (String × Nat)),
      internStrings toks = Except.ok l →
      l.map Prod.fst = dedupList toks ∧
      (dedupList toks).Nodup ∧
      ∀ i (h : i < l.length),
        (l.get ⟨i, h⟩).2 =
          65536 + (l.take i).foldl (fun acc p => acc + declen p.1 + 1) 0 := by
  intro toks l h
  exact ⟨internFrom_map_fst _ _ _ h, dedupAux_nodup _ _, internFrom_addr _ _ _ h⟩

/-- C7, witness: a concrete one-token program interned at 65536. -/
theorem coatl_C7_witness :
    ([("\"hi\"", 65536)].map Prod.fst = dedupList ["\"hi\""]) ∧
    (dedupList ["\"hi\""]).Nodup :=
  ⟨(coatl_C7_interning_per_token ["\"hi\""] [("\"hi\"", 65536)] rfl).1,
   (coatl_C7_interning_per_token ["\"hi\""] [("\"hi\"", 65536)] rfl).2.1⟩

/-- Lookup after a Python-dict insert: the inserted key maps to the new
value, everything else is unchanged. -/
theorem alookup_insertVal :
    ∀ (vals : List (String × String)) (k v f : String),
      alookup (insertVal vals k v) f = if f = k then some v else alookup vals f := by
  intro vals
  induction vals with
  | nil =>
    intro k v f
    by_cases h : f = k
    · subst h; simp [insertVal, alookup]
    · have h2 : ¬ k = f := fun hh => h hh.symm
      simp [insertVal, alookup, h, h2]
  | cons kv rest ih =>
    intro k v f
    obtain ⟨k0, v0⟩ := kv
    by_cases h1 : k0 = k
    · subst h1
      simp only [insertVal, if_pos rfl]
      by_cases h2 : f = k0
      · subst h2; simp [alookup]
      · have h3 : ¬ k0 = f := fun hh => h2 hh.symm
        simp [alookup, h2, h3]
    · simp only [insertVal, if_neg h1]
      by_cases h3 : k0 = f
      · subst h3
        simp [alookup, h1]
      · simp [alookup, h3, ih]

/-- Folding Python-dict inserts corresponds to folding a last-wins update on
the looked-up value. -/
theorem alookup_foldl_insertVal :
    ∀ (w : List (String × String)) (vals : List (String × String)) (f : String),
      alookup (w.foldl (fun acc kv => insertVal acc kv.1 kv.2) vals) f =
        w.foldl (fun acc kv => if kv.1 = f then some kv.2 else acc) (alookup vals f) := by
  intro w
  induction w with
  | nil => intro vals f; rfl
  | cons kv rest ih =>
    intro vals f
    simp only [List.foldl_cons]
    rw [ih (insertVal vals kv.1 kv.2) f, alookup_insertVal]
    by_cases h : kv.1 = f
    · simp [h]
    · have hne : ¬ f = kv.1 := fun hh => h hh.symm
      rw [if_neg hne, if_neg h]

/-- The struct-literal `vals` dict maps each field to the value of its last
occurrence in the written field list. -/
theorem alookup_buildVals (w : List (String × String)) (f : String) :
    alookup (buildVals w) f = lastVal w f := by
  unfold buildVals lastVal
  rw [alookup_foldl_insertVal]
  rfl

/-- The last-wins fold is `none` exactly when the field never occurs (for a
`none` start). -/
theorem foldl_lastVal_ne_none :
    ∀ (w : List (String × String)) (init : Option String) (f : String),
      (w.foldl (fun acc kv => if kv.1 = f then some kv.2 else acc) init ≠ none) ↔
        (init ≠ none ∨ ∃ kv ∈ w, kv.1 = f) := by
  intro w
  induction w with
  | nil => intro init f; simp
  | cons kv rest ih =>
    intro init f
    simp only [List.foldl_cons]
    rw [ih]
    by_cases h : kv.1 = f
    · simp [h]
    · simp only [if_neg h, List.mem_cons]
      constructor
      · rintro (hi | he)
        · exact Or.inl hi
        · exact Or.inr (by rcases he with ⟨p, hp, hf⟩; exact ⟨p, Or.inr hp, hf⟩)
      · rintro (hi | ⟨p, hp | hp, hf⟩)
        · exact Or.inl hi
        · exact absurd (hp ▸ hf) h
        · exact Or.inr ⟨p, hp, hf⟩

/-- `lastVal` is `some` exactly when the field occurs among the written
fields. -/
theorem lastVal_ne_none (w : List (String × String)) (f : String) :
    lastVal w f ≠ none ↔ ∃ kv ∈ w, kv.1 = f := by
  unfold lastVal
  rw [foldl_lastVal_ne_none]
  simp

/-- Association lookup fails exactly off the key set. -/
theorem alookup_none_iff :
    ∀ {α : Type} (vals : List (String × α)) (f : String),
      alookup vals f = none ↔ f ∉ vals.map Prod.fst := by
  intro α vals f
  induction vals with
  | nil => simp [alookup]
  | cons kv rest ih =>
    obtain ⟨k0, v0⟩ := kv
    by_cases h : k0 = f
    · subst h; simp [alookup]
    · have hne : f ≠ k0 := fun hh => h hh.symm
      rw [show alookup ((k0, v0) :: rest) f = alookup rest f from by
        rw [alookup, if_neg h], ih]
      simp [hne]

/-- C8, counterexample: a field written twice in a struct literal is not a
parse error — the Python dict silently keeps the last occurrence and the
lowering succeeds. -/
theorem coatl_C8_counterexample :
    structInitLets "p" ["x"] [("x", "(int 1)"), ("x", "(int 2)")] =
      Except.ok [("p__x", "(int 2)")] := by
  rfl

/-- C8, amended: a struct-literal lowering succeeds exactly when every
written field is declared and every declared field is written at least once
(extra and missing fields are parse errors, but duplicates are accepted with
the last occurrence winning); on success the per-field let bindings are
emitted in the struct's declaration order regardless of source order, each
bound to the value of the field's last occurrence. -/
theorem coatl_C8_struct_literal_fields :
    ∀ (name : String) (fields : List String) (written : List (String × String))
      (out : List (String × String)),
      structInitLets name fields written = Except.ok out ↔
        ((∀ kv ∈ written, kv.1 ∈ fields) ∧
         (∀ f ∈ fields, ∃ kv ∈ written, kv.1 = f) ∧
         out = fields.map (fun f => (name ++ "__" ++ f, (lastVal written f).getD ""))) := by
  intro name fields written out
  have hmapfun : (fun f => (name ++ "__" ++ f, (alookup (buildVals written) f).getD "")) =
      (fun f => (name ++ "__" ++ f, (lastVal written f).getD "")) := by
    funext f
    rw [alookup_buildVals]
  constructor
  · intro h
    unfold structInitLets at h
    cases hf1 : (buildVals written).find? (fun kv => !(fields.contains kv.1)) with
    | some kv => rw [hf1] at h; cases h
    | none =>
      rw [hf1] at h
      cases hf2 : fields.find? (fun f => (alookup (buildVals written) f).isNone) with
      | some f => rw [hf2] at h; cases h
      | none =>
        rw [hf2] at h
        cases h
        have hall1 := List.find?_eq_none.mp hf1
        have hall2 := List.find?_eq_none.mp hf2
        refine ⟨?_, ?_, ?_⟩
        · intro kv hkv
          have hlast : lastVal written kv.1 ≠ none :=
            (lastVal_ne_none written kv.1).mpr ⟨kv, hkv, rfl⟩
          have halook : alookup (buildVals written) kv.1 ≠ none := by
            rw [alookup_buildVals]; exact hlast
          have hmem : kv.1 ∈ (buildVals written).map Prod.fst := by
            by_contra hcon
            exact halook ((alookup_none_iff (buildVals written) kv.1).mpr hcon)
          obtain ⟨p, hp, hfst⟩ := List.mem_map.mp hmem
          have hpf := hall1 p hp
          simp at hpf
          rw [← hfst]
          exact hpf
        · intro f hfm
          have hf := hall2 f hfm
          simp only [Bool.not_eq_true, Option.isNone_eq_false_iff,
            Option.isSome_iff_ne_none] at hf
          rw [alookup_buildVals] at hf
          exact (lastVal_ne_none written f).mp hf
        · rw [hmapfun]
  · rintro ⟨hA, hB, hC⟩
    have e1 : (buildVals written).find? (fun kv => !(fields.contains kv.1)) = none := by
      refine List.find?_eq_none.mpr fun kv hkv => ?_
      have hmem : kv.1 ∈ (buildVals written).map Prod.fst :=
        List.mem_map.mpr ⟨kv, hkv, rfl⟩
      have halook : alookup (buildVals written) kv.1 ≠ none := by
        intro hcon
        exact (alookup_none_iff (buildVals written) kv.1).mp hcon hmem
      have hlast : lastVal written kv.1 ≠ none := by
        rw [← alookup_buildVals]; exact halook
      obtain ⟨p, hp, hfst⟩ := (lastVal_ne_none written kv.1).mp hlast
      have hin : kv.1 ∈ fields := hfst ▸ hA p hp
      simpa using hin
    have e2 : fields.find? (fun f => (alookup (buildVals written) f).isNone) = none := by
      refine List.find?_eq_none.mpr fun f hfm => ?_
      have hlast : lastVal written f ≠ none := (lastVal_ne_none written f).mpr (hB f hfm)
      have halook : alookup (buildVals written) f ≠ none := by
        rw [alookup_buildVals]; exact hlast
      simp only [Bool.not_eq_true, Option.isNone_eq_false_iff, Option.isSome_iff_ne_none]
      exact halook
    unfold structInitLets
    rw [e1, e2, hmapfun, ← hC]

/-- C8, witness: fields written out of declaration order are emitted in
declaration order with their written values. -/
theorem coatl_C8_witness :
    structInitLets "p" ["x", "y"] [("y", "(int 2)"), ("x", "(int 1)")] =
      Except.ok [("p__x", "(int 1)"), ("p__y", "(int 2)")] :=
  (coatl_C8_struct_literal_fields "p" ["x", "y"] [("y", "(int 2)"), ("x", "(int 1)")]
      [("p__x", "(int 1)"), ("p__y", "(int 2)")]).mpr
    ⟨by decide, by decide, by decide⟩

/-- C6: for a `R_X86_64_PC32` or `R_X86_64_PLT32` relocation the linker
performs the identical operation — patch the four little-endian bytes of
`S + A - P` (with `P = text_vaddr + r_offset`) at `r_offset` into the text
image, leaving every other byte unchanged; a value outside `[-2^31, 2^31)`
is a link error, and any other relocation type is a link error. -/
theorem coatl_C6_relocation :
    ∀ (tv : Nat) (symAddrs : List Nat) (r : Rela) (text : List Nat),
      (applyRela tv symAddrs { r with rType := rPLT32 } text =
        applyRela tv symAddrs { r with rType := rPC32 } text) ∧
      (r.rType ≠ rPC32 → r.rType ≠ rPLT32 →
        applyRela tv symAddrs r text = Except.error "unsupported relocation type") ∧
      (∀ s, symAddrs.get? r.rSym = some s →
        (r.rType = rPC32 ∨ r.rType = rPLT32) →
        ((-(2 ^ 31) ≤ (s : Int) + r.rAddend - ((tv : Int) + (r.rOffset : Int)) ∧
            (s : Int) + r.rAddend - ((tv : Int) + (r.rOffset : Int)) < 2 ^ 31) →
          ∃ text2, applyRela tv symAddrs r text = Except.ok text2 ∧
            (r.rOffset + 4 ≤ text.length →
              (∀ j, j < r.rOffset → text2[j]? = text[j]?) ∧
              (∀ k, k < 4 → text2[r.rOffset + k]? =
                (int32LE ((s : Int) + r.rAddend - ((tv : Int) + (r.rOffset : Int))))[k]?) ∧
              (∀ j, r.rOffset + 4 ≤ j → text2[j]? = text[j]?))) ∧
        (¬ (-(2 ^ 31) ≤ (s : Int) + r.rAddend - ((tv : Int) + (r.rOffset : Int)) ∧
            (s : Int) + r.rAddend - ((tv : Int) + (r.rOffset : Int)) < 2 ^ 31) →
          applyRela tv symAddrs r text = Except.error "relocation overflow")) := by
  intro tv symAddrs r text
  refine ⟨rfl, ?_, ?_⟩
  · intro h2 h3
    rw [applyRela, if_pos ⟨h2, h3⟩]
  · intro s hs htype
    have hcond : ¬ (r.rType ≠ rPC32 ∧ r.rType ≠ rPLT32) := by
      rcases htype with h | h <;> simp [h]
    have hlen4 : (int32LE ((s : Int) + r.rAddend - ((tv : Int) + (r.rOffset : Int)))).length = 4 := rfl
    constructor
    · intro hrange
      have hrange2 : -2147483648 ≤ (s : Int) + r.rAddend - ((tv : Int) + (r.rOffset : Int)) ∧
          (s : Int) + r.rAddend - ((tv : Int) + (r.rOffset : Int)) ≤ 2147483647 := by
        constructor <;> omega
      refine ⟨patchBytes text r.rOffset
        (int32LE ((s : Int) + r.rAddend - ((tv : Int) + (r.rOffset : Int)))), ?_, ?_⟩
      · rw [applyRela, if_neg hcond, hs]
        show (if -2147483648 ≤ (s : Int) + r.rAddend - ((tv : Int) + (r.rOffset : Int)) ∧
              (s : Int) + r.rAddend - ((tv : Int) + (r.rOffset : Int)) ≤ 2147483647 then
            Except.ok (patchBytes text r.rOffset
              (int32LE ((s : Int) + r.rAddend - ((tv : Int) + (r.rOffset : Int)))))
          else Except.error "relocation overflow") = _
        rw [if_pos hrange2]
      · intro hoff
        have htake : (text.take r.rOffset).length = r.rOffset := by
          rw [List.length_take]
          omega
        refine ⟨?_, ?_, ?_⟩
        · intro j hj
          rw [patchBytes, List.append_assoc, List.getElem?_append,
            if_pos (by omega : j < (text.take r.rOffset).length), List.getElem?_take,
            if_pos (by omega : j < r.rOffset)]
        · intro k hk
          rw [patchBytes, List.append_assoc, List.getElem?_append,
            if_neg (by omega : ¬ r.rOffset + k < (text.take r.rOffset).length),
            List.getElem?_append, htake,
            if_pos (by rw [hlen4]; omega : r.rOffset + k - r.rOffset <
              (int32LE ((s : Int) + r.rAddend - ((tv : Int) + (r.rOffset : Int)))).length)]
          congr 1
          omega
        · intro j hj
          rw [patchBytes, List.append_assoc, List.getElem?_append,
            if_neg (by omega : ¬ j < (text.take r.rOffset).length),
            List.getElem?_append, htake, hlen4,
            if_neg (by omega : ¬ j - r.rOffset < 4), List.getElem?_drop]
          congr 1
          omega
    · intro hrange
      have hrange2 : ¬ (-2147483648 ≤ (s : Int) + r.rAddend - ((tv : Int) + (r.rOffset : Int)) ∧
          (s : Int) + r.rAddend - ((tv : Int) + (r.rOffset : Int)) ≤ 2147483647) := by
        intro hc
        exact hrange ⟨by omega, by omega⟩
      rw [applyRela, if_neg hcond, hs]
      show (if -2147483648 ≤ (s : Int) + r.rAddend - ((tv : Int) + (r.rOffset : Int)) ∧
            (s : Int) + r.rAddend - ((tv : Int) + (r.rOffset : Int)) ≤ 2147483647 then
          Except.ok (patchBytes text r.rOffset
            (int32LE ((s : Int) + r.rAddend - ((tv : Int) + (r.rOffset : Int)))))
        else Except.error "relocation overflow") = _
      rw [if_neg hrange2]

/-- C6, witness: a concrete in-range `PC32` relocation patches bytes, an
out-of-range one errors, and an unknown type errors; `PLT32` behaves as
`PC32`. -/
theorem coatl_C6_witness :
    (applyRela 4096 [4200] ⟨0, rPLT32, 0, -4⟩ [9, 9, 9, 9, 9, 9] =
      applyRela 4096 [4200] ⟨0, rPC32, 0, -4⟩ [9, 9, 9, 9, 9, 9]) ∧
    applyRela 4096 [4200] ⟨0, 3, 0, -4⟩ [9, 9, 9, 9, 9, 9] =
      Except.error "unsupported relocation type" ∧
    applyRela 4096 [99999999999] ⟨0, rPC32, 0, 0⟩ [9, 9, 9, 9, 9, 9] =
      Except.error "relocation overflow" :=
  ⟨(coatl_C6_relocation 4096 [4200] ⟨0, rPC32, 0, -4⟩ [9, 9, 9, 9, 9, 9]).1,
   (coatl_C6_relocation 4096 [4200] ⟨0, 3, 0, -4⟩ [9, 9, 9, 9, 9, 9]).2.1
     (by decide) (by decide),
   ((coatl_C6_relocation 4096 [99999999999] ⟨0, rPC32, 0, 0⟩ [9, 9, 9, 9, 9, 9]).2.2
     99999999999 (by rfl) (Or.inl rfl)).2 (by decide)⟩

/-! ## Stack-depth invariants of the emitter -/

theorem emitL_depth (s : String) (st : FnSt) : (emitL s st).depth = st.depth := rfl

theorem emitL_calls (s : String) (st : FnSt) : (emitL s st).callDepths = st.callDepths := rfl

theorem bumpDepth_depth (n : Int) (st : FnSt) : (bumpDepth n st).depth = st.depth + n := rfl

theorem bumpDepth_calls (n : Int) (st : FnSt) : (bumpDepth n st).callDepths = st.callDepths := rfl

theorem pushRax_depth (st : FnSt) : (pushRax st).depth = st.depth + 1 := rfl

theorem pushRax_calls (st : FnSt) : (pushRax st).callDepths = st.callDepths := rfl

theorem popReg_depth (r : String) (st : FnSt) : (popReg r st).depth = st.depth - 1 := by
  show st.depth + (-1) = st.depth - 1
  omega

theorem popReg_calls (r : String) (st : FnSt) : (popReg r st).callDepths = st.callDepths := rfl

theorem appendLines_depth (ls : List String) (st : FnSt) :
    (appendLines ls st).depth = st.depth := rfl

theorem appendLines_calls (ls : List String) (st : FnSt) :
    (appendLines ls st).callDepths = st.callDepths := rfl

theorem recordCall_depth (fn : String) (st : FnSt) : (recordCall fn st).depth = st.depth := rfl

theorem recordCall_calls (fn : String) (st : FnSt) :
    (recordCall fn st).callDepths = st.callDepths ++ [st.depth] := rfl

theorem cdOK_refl (st : FnSt) : cdOK st st := fun _ hd => Or.inl hd

theorem cdOK_trans {a b c : FnSt} (h1 : cdOK a b) (h2 : cdOK b c) : cdOK a c := by
  intro d hd
  rcases h2 d hd with h | h
  · exact h1 d h
  · exact Or.inr h

theorem pres_refl (st : FnSt) : Pres st st := ⟨rfl, cdOK_refl st⟩

theorem pres_trans {a b c : FnSt} (h1 : Pres a b) (h2 : Pres b c) : Pres a c :=
  ⟨h2.1.trans h1.1, cdOK_trans h1.2 h2.2⟩

theorem pres_emitL (s : String) (st : FnSt) : Pres st (emitL s st) :=
  ⟨rfl, fun _ hd => Or.inl hd⟩

/-- `cdOK` only depends on the two call-depth traces. -/
theorem cdOK_of_calls_eq {a b c : FnSt} (h : b.callDepths = a.callDepths)
    (h2 : cdOK b c) : cdOK a c := by
  intro d hd
  rcases h2 d hd with hm | hm
  · exact Or.inl (h ▸ hm)
  · exact Or.inr hm

/-- A filter and its complement partition a list's length. -/
theorem filterPartitionLength {α : Type} (p : α → Bool) :
    ∀ l : List α, (l.filter p).length + (l.filter (fun x => !(p x))).length = l.length := by
  intro l
  induction l with
  | nil => rfl
  | cons x rest ih =>
    by_cases h : p x
    · simp [List.filter_cons, h, ih]
      omega
    · simp [List.filter_cons, h, ih]
      omega

/-- With matching arity, every argument's class is its declared type. -/
theorem classList_self :
    ∀ (pts : List String) (args : List Node), pts.length = args.length →
      classList pts args = pts := by
  intro pts
  induction pts with
  | nil =>
    intro args h
    cases args with
    | nil => rfl
    | cons a as => simp at h
  | cons t ts ih =>
    intro args h
    cases args with
    | nil => simp at h
    | cons a as =>
      simp only [classList]
      rw [ih as (by simpa using h)]

/-- Closed form of the saturating pop counters. -/
theorem popCount_eq_min :
    ∀ (pts : List String) (ci cf : Nat),
      popCount pts ci cf =
        min ((pts.filter (fun t => !(isFloatTy t))).length) (6 - ci) +
        min ((pts.filter isFloatTy).length) (8 - cf) := by
  intro pts
  induction pts with
  | nil => intro ci cf; simp [popCount]
  | cons ty rest ih =>
    intro ci cf
    by_cases hf : isFloatTy ty
    · by_cases hcf : cf < 8
      · simp only [popCount, if_pos hf, if_pos hcf, List.filter_cons, hf]
        rw [ih ci (cf + 1)]
        simp
        omega
      · simp only [popCount, if_pos hf, if_neg hcf, List.filter_cons, hf]
        rw [ih ci cf]
        simp
        omega
    · by_cases hci : ci < 6
      · simp only [popCount, if_neg hf, if_pos hci, List.filter_cons,
          Bool.not_eq_true] at *
        rw [show isFloatTy ty = false from by simpa using hf]
        rw [ih (ci + 1) cf]
        simp
        omega
      · simp only [popCount, if_neg hf, if_neg hci, List.filter_cons,
          Bool.not_eq_true] at *
        rw [show isFloatTy ty = false from by simpa using hf]
        rw [ih ci cf]
        simp
        omega

/-- `popLoop` lowers the depth counter by exactly the number of pops. -/
theorem popLoop_depth :
    ∀ (pts : List String) (ci cf : Nat) (st : FnSt),
      (popLoop pts ci cf st).depth = st.depth - (popCount pts ci cf : Int) := by
  intro pts
  induction pts with
  | nil => intro ci cf st; simp [popLoop, popCount]
  | cons ty rest ih =>
    intro ci cf st
    by_cases hf : isFloatTy ty
    · by_cases hcf : cf < 8
      · simp only [popLoop, popCount, if_pos hf, if_pos hcf]
        rw [ih]
        simp [emitL, popReg, bumpDepth]
        push_cast
        omega
      · simp only [popLoop, popCount, if_pos hf, if_neg hcf]
        exact ih ci cf st
    · by_cases hci : ci < 6
      · simp only [popLoop, popCount, if_neg hf, if_pos hci]
        rw [ih]
        simp [popReg, emitL, bumpDepth]
        push_cast
        omega
      · simp only [popLoop, popCount, if_neg hf, if_neg hci]
        exact ih ci cf st

/-- `popLoop` never records a call depth. -/
theorem popLoop_calls :
    ∀ (pts : List String) (ci cf : Nat) (st : FnSt),
      (popLoop pts ci cf st).callDepths = st.callDepths := by
  intro pts
  induction pts with
  | nil => intro ci cf st; simp [popLoop]
  | cons ty rest ih =>
    intro ci cf st
    by_cases hf : isFloatTy ty
    · by_cases hcf : cf < 8
      · simp only [popLoop, if_pos hf, if_pos hcf]
        rw [ih]
        rfl
      · simp only [popLoop, if_pos hf, if_neg hcf]
        exact ih ci cf st
    · by_cases hci : ci < 6
      · simp only [popLoop, if_neg hf, if_pos hci]
        rw [ih]
        rfl
      · simp only [popLoop, if_neg hf, if_neg hci]
        exact ih ci cf st

/-- The reversed argument loop pushes exactly one slot per argument and (via
the argument emitter) records only even call depths. -/
theorem emitArgsRev_spec :
    ∀ (args : List Node) (emitE : Node → FnSt → Except String FnSt) (st stOut : FnSt),
      (∀ a ∈ args, ∀ s1 s2, emitE a s1 = Except.ok s2 → Pres s1 s2) →
      emitArgsRev emitE args st = Except.ok stOut →
      stOut.depth = st.depth + (args.length : Int) ∧ cdOK st stOut := by
  intro args
  induction args with
  | nil =>
    intro emitE st stOut hE h
    cases h
    exact ⟨by simp, cdOK_refl st⟩
  | cons a rest ih =>
    intro emitE st stOut hE h
    simp only [emitArgsRev] at h
    split at h
    · cases h
    · rename_i st1 hr
      split at h
      · cases h
      · rename_i st2 he
        cases h
        have hrest := ih emitE st st1 (fun b hb => hE b (List.mem_cons_of_mem a hb)) hr
        have hthis := hE a (List.mem_cons_self a rest) st1 st2 he
        refine ⟨?_, ?_⟩
        · rw [pushRax_depth, hthis.1, hrest.1]
          simp only [List.length_cons]
          push_cast
          omega
        · refine cdOK_trans hrest.2 ?_
          intro d hd
          rw [pushRax_calls] at hd
          exact hthis.2 d hd

theorem retMoveIte_depth (retTy : String) (x : FnSt) :
    (if retTy = "f32" then emitL "  movd eax, xmm0" x
     else if retTy = "f64" then emitL "  movq rax, xmm0" x else x).depth = x.depth := by
  split_ifs <;> rfl

theorem retMoveIte_calls (retTy : String) (x : FnSt) :
    (if retTy = "f32" then emitL "  movd eax, xmm0" x
     else if retTy = "f64" then emitL "  movq rax, xmm0" x else x).callDepths =
      x.callDepths := by
  split_ifs <;> rfl

theorem cleanupIte_depth (c : Nat) (s : String) (x : FnSt) :
    (if c ≠ 0 then bumpDepth (-(c : Int)) (emitL s x) else x).depth = x.depth - (c : Int) := by
  split_ifs with hc
  · show (emitL s x).depth + (-(c : Int)) = x.depth - (c : Int)
    rw [emitL_depth]
    omega
  · have : c = 0 := by omega
    rw [this]
    simp

theorem cleanupIte_calls (c : Nat) (s : String) (x : FnSt) :
    (if c ≠ 0 then bumpDepth (-(c : Int)) (emitL s x) else x).callDepths =
      x.callDepths := by
  split_ifs <;> rfl

/-- The pops of a matching-arity call exactly complement the stack-resident
arguments: `popCount + stack_args = n_args`. -/
theorem popCount_add_stackArgs (env : Env) (fn : String) (args : List Node)
    (hA : arityOk env fn args = true) :
    popCount (paramTypesFor env fn args).1 0 0 + stackArgs env fn args = args.length := by
  have hlen : (paramTypesFor env fn args).1.length = args.length := by
    simpa [arityOk] using hA
  have hcls : classList (paramTypesFor env fn args).1 args = (paramTypesFor env fn args).1 :=
    classList_self _ _ hlen
  have hpart := filterPartitionLength isFloatTy (paramTypesFor env fn args).1
  rw [popCount_eq_min]
  simp only [stackArgs, hcls]
  omega

/-- `FnEmitter.emit_call` specification: with matching arity and an argument
emitter that preserves depth (recording only even call depths), the emitted
call (a) preserves the stack-depth counter, (b) records only even call
depths, (c) records at the `call` instruction the depth
`entry + pad + stack_args` where one quadword of padding is inserted exactly
when `(entry + stack_args)` is odd — and that recorded depth is even. -/
theorem emitCallGen_spec :
    ∀ (emitE : Node → FnSt → Except String FnSt) (env : Env) (fn : String)
      (args : List Node) (st stOut : FnSt),
      (∀ a ∈ args, ∀ s1 s2, emitE a s1 = Except.ok s2 → Pres s1 s2) →
      arityOk env fn args = true →
      emitCallGen emitE env fn args st = Except.ok stOut →
      stOut.depth = st.depth ∧ cdOK st stOut ∧
      stOut.callDepths.getLast? =
        some (st.depth +
          (if (st.depth + (stackArgs env fn args : Int)) % 2 = 1 then 1 else 0) +
          (stackArgs env fn args : Int)) ∧
      (st.depth +
          (if (st.depth + (stackArgs env fn args : Int)) % 2 = 1 then 1 else 0) +
          (stackArgs env fn args : Int)) % 2 = 0 := by
  intro emitE env fn args st stOut hE hA h
  have hnat := popCount_add_stackArgs env fn args hA
  simp only [emitCallGen] at h
  by_cases hguard : (¬ env.fnNames.contains fn = true ∧ ¬ strStarts "__" fn = true)
  · rw [if_pos hguard] at h
    cases h
  · rw [if_neg hguard] at h
    by_cases hpad : (st.depth + (stackArgs env fn args : Int)) % 2 = 1
    · rw [if_pos hpad, if_pos hpad] at h
      split at h
      · cases h
      · rename_i stA hAR
        cases h
        have hargs := emitArgsRev_spec args emitE _ stA hE hAR
        have hAd : stA.depth = st.depth + 1 + (args.length : Int) := by
          rw [hargs.1, bumpDepth_depth, emitL_depth]
        have hAc : cdOK st stA := by
          intro d hd
          rcases hargs.2 d hd with hm | hm
          · rw [bumpDepth_calls, emitL_calls] at hm
            exact Or.inl hm
          · exact Or.inr hm
        have hcallsOut :
            (if stackArgs env fn args + 1 ≠ 0 then
               bumpDepth (-(↑(stackArgs env fn args + 1) : Int))
                 (emitL ("  add rsp, " ++ toString ((stackArgs env fn args + 1) * 8))
                   (if (paramTypesFor env fn args).2 = "f32" then
                      emitL "  movd eax, xmm0"
                        (recordCall fn (popLoop (paramTypesFor env fn args).1 0 0 stA))
                    else if (paramTypesFor env fn args).2 = "f64" then
                      emitL "  movq rax, xmm0"
                        (recordCall fn (popLoop (paramTypesFor env fn args).1 0 0 stA))
                    else recordCall fn (popLoop (paramTypesFor env fn args).1 0 0 stA)))
             else
               (if (paramTypesFor env fn args).2 = "f32" then
                  emitL "  movd eax, xmm0"
                    (recordCall fn (popLoop (paramTypesFor env fn args).1 0 0 stA))
                else if (paramTypesFor env fn args).2 = "f64" then
                  emitL "  movq rax, xmm0"
                    (recordCall fn (popLoop (paramTypesFor env fn args).1 0 0 stA))
                else recordCall fn (popLoop (paramTypesFor env fn args).1 0 0 stA))).callDepths =
              stA.callDepths ++ [stA.depth - (popCount (paramTypesFor env fn args).1 0 0 : Int)] := by
          rw [cleanupIte_calls, retMoveIte_calls, recordCall_calls, popLoop_calls,
            popLoop_depth]
        refine ⟨?_, ?_, ?_, ?_⟩
        · rw [cleanupIte_depth, retMoveIte_depth, recordCall_depth, popLoop_depth, hAd]
          push_cast
          omega
        · intro d hd
          rw [hcallsOut] at hd
          rcases List.mem_append.mp hd with hm | hm
          · exact hAc d hm
          · have hdv : d = stA.depth - (popCount (paramTypesFor env fn args).1 0 0 : Int) := by
              simpa using hm
            right
            rw [hdv, hAd]
            push_cast at hpad ⊢
            omega
        · rw [hcallsOut, List.getLast?_concat, if_pos hpad, hAd]
          congr 1
          push_cast
          omega
        · rw [if_pos hpad]
          omega
    · rw [if_neg hpad, if_neg hpad] at h
      split at h
      · cases h
      · rename_i stA hAR
        cases h
        have hargs := emitArgsRev_spec args emitE _ stA hE hAR
        have hAd : stA.depth = st.depth + (args.length : Int) := hargs.1
        have hAc : cdOK st stA := hargs.2
        have hcallsOut :
            (if stackArgs env fn args + 0 ≠ 0 then
               bumpDepth (-(↑(stackArgs env fn args + 0) : Int))
                 (emitL ("  add rsp, " ++ toString ((stackArgs env fn args + 0) * 8))
                   (if (paramTypesFor env fn args).2 = "f32" then
                      emitL "  movd eax, xmm0"
                        (recordCall fn (popLoop (paramTypesFor env fn args).1 0 0 stA))
                    else if (paramTypesFor env fn args).2 = "f64" then
                      emitL "  movq rax, xmm0"
                        (recordCall fn (popLoop (paramTypesFor env fn args).1 0 0 stA))
                    else recordCall fn (popLoop (paramTypesFor env fn args).1 0 0 stA)))
             else
               (if (paramTypesFor env fn args).2 = "f32" then
                  emitL "  movd eax, xmm0"
                    (recordCall fn (popLoop (paramTypesFor env fn args).1 0 0 stA))
                else if (paramTypesFor env fn args).2 = "f64" then
                  emitL "  movq rax, xmm0"
                    (recordCall fn (popLoop (paramTypesFor env fn args).1 0 0 stA))
                else recordCall fn (popLoop (paramTypesFor env fn args).1 0 0 stA))).callDepths =
              stA.callDepths ++ [stA.depth - (popCount (paramTypesFor env fn args).1 0 0 : Int)] := by
          rw [cleanupIte_calls, retMoveIte_calls, recordCall_calls, popLoop_calls,
            popLoop_depth]
        refine ⟨?_, ?_, ?_, ?_⟩
        · rw [cleanupIte_depth, retMoveIte_depth, recordCall_depth, popLoop_depth, hAd]
          push_cast
          omega
        · intro d hd
          rw [hcallsOut] at hd
          rcases List.mem_append.mp hd with hm | hm
          · exact hAc d hm
          · have hdv : d = stA.depth - (popCount (paramTypesFor env fn args).1 0 0 : Int) := by
              simpa using hm
            right
            rw [hdv, hAd]
            push_cast at hpad ⊢
            omega
        · rw [hcallsOut, List.getLast?_concat, if_neg hpad, hAd]
          congr 1
          push_cast
          omega
        · rw [if_neg hpad]
          push_cast at hpad ⊢
          omega

theorem nth_ok (es : List Node) (i : Nat) (x : Node) :
    nth es i = Except.ok x ↔ es.get? i = some x := by
  unfold nth
  cases es.get? i <;> simp

theorem getmatch_ok (l : List Node) (i : Nat) (x : Node) :
    (match l.get? i with
     | some n => Except.ok n
     | none => (Except.error "index out of range" : Except String Node)) = Except.ok x ↔
    l.get? i = some x := by
  cases l.get? i <;> simp

/-- Every successful expression emission preserves the stack-depth counter
and records only even call depths (on arity-well-formed IR). -/
theorem emitExpr_pres :
    ∀ (fuel : Nat) (env : Env) (e : Node) (st stOut : FnSt),
      wfExpr env fuel e = true →
      emitExpr env fuel e st = Except.ok stOut → Pres st stOut := by
  intro fuel
  induction fuel with
  | zero =>
    intro env e st stOut hwf h
    simp [emitExpr] at h
  | succ fuel ih =>
    intro env e st stOut hwf h
    cases e with
    | atom s => simp [emitExpr, asList] at h
    | list es =>
      cases es with
      | nil => simp [emitExpr, asList, nthAtom, nth, List.get?] at h
      | cons h0 t =>
        cases h0 with
        | list l0 => simp [emitExpr, asList, nthAtom, nth, List.get?, asAtom] at h
        | atom tag =>
          simp only [emitExpr, asList, nthAtom, nth, List.get?, asAtom] at h
          by_cases h1 : tag = "int"
          · subst h1
            rw [if_pos rfl] at h
            split at h
            · cases h
            · cases h
              exact pres_emitL _ _
          rw [if_neg h1] at h
          by_cases h2 : tag = "int_i64"
          · subst h2
            rw [if_pos rfl] at h
            split at h
            · cases h
            · cases h
              exact pres_emitL _ _
          rw [if_neg h2] at h
          by_cases h3 : tag = "float_f32"
          · subst h3
            rw [if_pos rfl] at h
            split at h
            · cases h
            · cases h
              exact pres_emitL _ _
          rw [if_neg h3] at h
          by_cases h4 : tag = "float_f64"
          · subst h4
            rw [if_pos rfl] at h
            split at h
            · cases h
            · cases h
              exact pres_emitL _ _
          rw [if_neg h4] at h
          by_cases h5 : tag = "bool"
          · subst h5
            rw [if_pos rfl] at h
            split at h
            · cases h
            · cases h
              exact pres_emitL _ _
          rw [if_neg h5] at h
          by_cases h6 : tag = "ident"
          · subst h6
            rw [if_pos rfl] at h
            split at h
            · cases h
            · split at h
              · cases h
              · split at h
                · cases h
                · cases h
                  exact pres_emitL _ _
          rw [if_neg h6] at h
          by_cases h7 : tag = "string"
          · subst h7
            rw [if_pos rfl] at h
            split at h
            · cases h
            · split at h
              · cases h
              · cases h
                exact pres_emitL _ _
          rw [if_neg h7] at h
          by_cases h8 : tag = "binary"
          · subst h8
            rw [if_pos rfl] at h
            split at h
            · cases h
            · rename_i op hop
              split at h
              · cases h
              · rename_i ops ty lhs rhs hops
                split at h
                · cases h
                · rename_i st1 hlhs
                  split at h
                  · cases h
                  · rename_i st3 hrhs
                    split at h
                    · cases h
                    · rename_i ls hls
                      cases h
                      simp only [wfExpr] at hwf
                      by_cases hl5 : (Node.atom "binary" :: t).length = 5
                      · rw [if_pos hl5] at hops hwf
                        split at hops
                        · cases hops
                        · split at hops
                          · rename_i tyv h3a l r h3 h4
                            cases hops
                            rw [getmatch_ok] at h3 h4
                            simp only [List.get?] at hwf
                            rw [h3, h4] at hwf
                            rw [Bool.and_eq_true] at hwf
                            have hp1 := ih env lhs st st1 hwf.1 hlhs
                            have hp2 := ih env rhs (pushRax st1) st3 hwf.2 hrhs
                            refine ⟨?_, ?_⟩
                            · rw [appendLines_depth, popReg_depth, emitL_depth,
                                hp2.1, pushRax_depth, hp1.1]
                              omega
                            · intro d hd
                              rw [appendLines_calls, popReg_calls, emitL_calls] at hd
                              rcases hp2.2 d hd with hm | hm
                              · rw [pushRax_calls] at hm
                                exact hp1.2 d hm
                              · exact Or.inr hm
                          · cases hops
                          · cases hops
                      · rw [if_neg hl5] at hops hwf
                        split at hops
                        · rename_i l r h3 h4
                          cases hops
                          rw [getmatch_ok] at h3 h4
                          simp only [List.get?] at hwf
                          rw [h3, h4] at hwf
                          rw [Bool.and_eq_true] at hwf
                          have hp1 := ih env lhs st st1 hwf.1 hlhs
                          have hp2 := ih env rhs (pushRax st1) st3 hwf.2 hrhs
                          refine ⟨?_, ?_⟩
                          · rw [appendLines_depth, popReg_depth, emitL_depth,
                              hp2.1, pushRax_depth, hp1.1]
                            omega
                          · intro d hd
                            rw [appendLines_calls, popReg_calls, emitL_calls] at hd
                            rcases hp2.2 d hd with hm | hm
                            · rw [pushRax_calls] at hm
                              exact hp1.2 d hm
                            · exact Or.inr hm
                        · cases hops
                        · cases hops
          rw [if_neg h8] at h
          by_cases h9 : tag = "call"
          · subst h9
            rw [if_pos rfl] at h
            split at h
            · cases h
            · rename_i fn hfn
              cases t with
              | nil => simp [nthAtom, nth, List.get?] at hfn
              | cons t0 rest2 =>
                cases t0 with
                | list l0 => simp [nthAtom, nth, List.get?, asAtom] at hfn
                | atom fn0 =>
                  have hfneq : fn0 = fn := by
                    simpa [nthAtom, nth, List.get?, asAtom] using hfn
                  subst hfneq
                  rw [show (Node.atom "call" :: Node.atom fn0 :: rest2).drop 2 = rest2
                    from rfl] at h
                  simp only [wfExpr] at hwf
                  rw [Bool.and_eq_true] at hwf
                  have hall := List.all_eq_true.mp hwf.2
                  have hspec := emitCallGen_spec (emitExpr env fuel) env fn0 rest2 st stOut
                    (fun a ha s1 s2 hok => ih env a s1 s2 (by simpa using hall a ha) hok)
                    hwf.1 h
                  exact ⟨hspec.1, hspec.2.1⟩
          rw [if_neg h9] at h
          cases h

theorem pres_label (fn pfx : String) (st : FnSt) : Pres st (newLabel fn pfx st).2 :=
  ⟨rfl, fun _ hd => Or.inl hd⟩

theorem storeLocal_pres (env : Env) (name : String) (x y : FnSt)
    (h : storeLocal env name x = Except.ok y) : Pres x y := by
  unfold storeLocal at h
  split at h
  · cases h
  · split at h
    · cases h
    · cases h
      exact pres_emitL _ _

/-- A monadic fold of depth-preserving statement emissions preserves depth. -/
theorem foldlM_pres :
    ∀ (l : List Node) (emitS : Node → FnSt → Except String FnSt) (st stOut : FnSt),
      (∀ s ∈ l, ∀ a b, emitS s a = Except.ok b → Pres a b) →
      l.foldlM (fun st s => emitS s st) st = Except.ok stOut → Pres st stOut := by
  intro l
  induction l with
  | nil =>
    intro emitS st stOut hS h
    simp only [List.foldlM] at h
    cases h
    exact pres_refl _
  | cons s rest ih =>
    intro emitS st stOut hS h
    simp only [List.foldlM, bind, Except.bind] at h
    split at h
    · cases h
    · rename_i st1 h1
      exact pres_trans (hS s (List.mem_cons_self s rest) st st1 h1)
        (ih emitS st1 stOut (fun s2 hs2 => hS s2 (List.mem_cons_of_mem s hs2)) h)

/-- Block emission preserves depth when each well-formed statement does. -/
theorem emitBlockGen_pres :
    ∀ (emitS : Node → FnSt → Except String FnSt) (wfS : Node → Bool) (blk : Node)
      (st stOut : FnSt),
      (∀ s a b, wfS s = true → emitS s a = Except.ok b → Pres a b) →
      wfBlockWith wfS blk = true →
      emitBlockGen emitS blk st = Except.ok stOut → Pres st stOut := by
  intro emitS wfS blk st stOut hS hwf h
  cases blk with
  | atom s => simp [emitBlockGen, asList] at h
  | list bs =>
    cases bs with
    | nil => simp [emitBlockGen, asList, nthAtom, nth, List.get?] at h
    | cons b0 brest =>
      cases b0 with
      | list l0 => simp [emitBlockGen, asList, nthAtom, nth, List.get?, asAtom] at h
      | atom tagb =>
        simp only [emitBlockGen, asList, nthAtom, nth, List.get?, asAtom,
          List.drop] at h
        by_cases htag : tagb = "block"
        · subst htag
          rw [if_pos rfl] at h
          simp only [wfBlockWith] at hwf
          exact foldlM_pres brest emitS st stOut
            (fun s hs a b hok =>
              hS s a b (by simpa using List.all_eq_true.mp hwf s hs) hok) h
        · rw [if_neg htag] at h
          cases h

/-- Every successful statement emission preserves the stack-depth counter
and records only even call depths (on arity-well-formed IR). -/
theorem emitStmt_pres :
    ∀ (fuel : Nat) (env : Env) (retLabel : String) (s : Node) (st stOut : FnSt),
      wfStmt env fuel s = true →
      emitStmt env retLabel fuel s st = Except.ok stOut → Pres st stOut := by
  intro fuel
  induction fuel with
  | zero =>
    intro env retLabel s st stOut hwf h
    simp [emitStmt] at h
  | succ fuel ih =>
    intro env retLabel s st stOut hwf h
    cases s with
    | atom s0 => simp [emitStmt, asList] at h
    | list ss =>
      cases ss with
      | nil => simp [emitStmt, asList, nthAtom, nth, List.get?] at h
      | cons s0 t =>
        cases s0 with
        | list l0 => simp [emitStmt, asList, nthAtom, nth, List.get?, asAtom] at h
        | atom tag =>
          simp only [emitStmt, asList, nthAtom, nth, List.get?, asAtom] at h
          by_cases h1 : tag = "let"
          · subst h1
            rw [if_pos rfl] at h
            simp only [wfStmt] at hwf
            split at h
            · cases h
            · rename_i name hname
              split at h
              · cases h
              · rename_i valExpr hval
                rw [getmatch_ok] at hval
                rw [hval] at hwf
                split at h
                · cases h
                · rename_i st1 hv
                  exact pres_trans
                    (emitExpr_pres fuel env valExpr st st1 (by simpa using hwf) hv)
                    (storeLocal_pres env name st1 stOut h)
          rw [if_neg h1] at h
          by_cases h2 : tag = "assign"
          · subst h2
            rw [if_pos rfl] at h
            simp only [wfStmt] at hwf
            split at h
            · cases h
            · rename_i name hname
              split at h
              · cases h
              · rename_i valExpr hval
                rw [getmatch_ok] at hval
                rw [hval] at hwf
                split at h
                · cases h
                · rename_i st1 hv
                  exact pres_trans
                    (emitExpr_pres fuel env valExpr st st1 (by simpa using hwf) hv)
                    (storeLocal_pres env name st1 stOut h)
          rw [if_neg h2] at h
          by_cases h3 : tag = "return"
          · subst h3
            rw [if_pos rfl] at h
            simp only [wfStmt] at hwf
            split at h
            · cases h
            · rename_i e1 he1
              rw [getmatch_ok] at he1
              rw [he1] at hwf
              split at h
              · cases h
              · rename_i st1 hv
                cases h
                exact pres_trans
                  (emitExpr_pres fuel env e1 st st1 (by simpa using hwf) hv)
                  (pres_emitL _ _)
          rw [if_neg h3] at h
          by_cases h4 : tag = "expr"
          · subst h4
            rw [if_pos rfl] at h
            simp only [wfStmt] at hwf
            split at h
            · cases h
            · rename_i e1 he1
              rw [getmatch_ok] at he1
              rw [he1] at hwf
              exact emitExpr_pres fuel env e1 st stOut (by simpa using hwf) h
          rw [if_neg h4] at h
          by_cases h5 : tag = "if"
          · subst h5
            rw [if_pos rfl] at h
            simp only [wfStmt] at hwf
            rw [Bool.and_eq_true, Bool.and_eq_true] at hwf
            obtain ⟨⟨hwfA, hwfB⟩, hwfC⟩ := hwf
            split at h
            · cases h
            · rename_i cond hcond0
              rw [getmatch_ok] at hcond0
              have hwfc : wfExpr env fuel cond = true := by
                rw [hcond0] at hwfA
                simpa using hwfA
              split at h
              · cases h
              · rename_i st1 hcond
                split at h
                · cases h
                · rename_i thenB hthen0
                  rw [getmatch_ok] at hthen0
                  have hwfb : wfBlockWith (wfStmt env fuel) thenB = true := by
                    rw [hthen0] at hwfB
                    simpa using hwfB
                  split at h
                  · cases h
                  · rename_i st3 hthen
                    have hpre : Pres st st3 :=
                      pres_trans (⟨rfl, fun _ hd => Or.inl hd⟩ : Pres st
                          (newLabel env.fnName "ifend" (newLabel env.fnName "else" st).2).2)
                        (pres_trans (emitExpr_pres fuel env cond _ st1 hwfc hcond)
                          (pres_trans (pres_emitL _ _)
                            (pres_trans (pres_emitL _ _)
                              (emitBlockGen_pres (emitStmt env retLabel fuel)
                                (wfStmt env fuel) thenB _ st3
                                (fun s2 a b hw hok => ih env retLabel s2 a b hw hok)
                                hwfb hthen))))
                    split at h
                    · rename_i hsn
                      cases h
                      exact pres_trans hpre
                        (pres_trans (pres_emitL _ _)
                          (pres_trans (pres_emitL _ _) (pres_emitL _ _)))
                    · rename_i sn hsn
                      cases sn with
                      | atom s2 => simp [asList] at h
                      | list eb =>
                        simp only [asList] at h
                        cases eb with
                        | nil => simp [List.get?] at h
                        | cons e0 erest =>
                          cases e0 with
                          | list l1 => simp [List.get?, asAtom] at h
                          | atom etag =>
                            simp only [List.get?, asAtom] at h
                            by_cases hetag : etag = "else"
                            · subst hetag
                              rw [if_pos rfl] at h
                              split at h
                              · cases h
                              · rename_i elseB helB
                                rw [getmatch_ok] at helB
                                have hwfe : wfBlockWith (wfStmt env fuel) elseB = true := by
                                  rw [hsn] at hwfC
                                  simp only [helB] at hwfC
                                  simpa using hwfC
                                split at h
                                · cases h
                                · rename_i st5 hels
                                  cases h
                                  exact pres_trans hpre
                                    (pres_trans (pres_emitL _ _)
                                      (pres_trans (pres_emitL _ _)
                                        (pres_trans
                                          (emitBlockGen_pres (emitStmt env retLabel fuel)
                                            (wfStmt env fuel) elseB _ st5
                                            (fun s2 a b hw hok =>
                                              ih env retLabel s2 a b hw hok)
                                            hwfe hels)
                                          (pres_emitL _ _))))
                            · rw [if_neg hetag] at h
                              cases h
                              exact pres_trans hpre
                                (pres_trans (pres_emitL _ _)
                                  (pres_trans (pres_emitL _ _) (pres_emitL _ _)))
          rw [if_neg h5] at h
          by_cases h6 : tag = "while"
          · subst h6
            rw [if_pos rfl] at h
            simp only [wfStmt] at hwf
            rw [Bool.and_eq_true] at hwf
            obtain ⟨hwfA, hwfB⟩ := hwf
            split at h
            · cases h
            · rename_i cond hcond0
              rw [getmatch_ok] at hcond0
              have hwfc : wfExpr env fuel cond = true := by
                rw [hcond0] at hwfA
                simpa using hwfA
              split at h
              · cases h
              · rename_i st1 hcond
                split at h
                · cases h
                · rename_i body hbody0
                  rw [getmatch_ok] at hbody0
                  have hwfb : wfBlockWith (wfStmt env fuel) body = true := by
                    rw [hbody0] at hwfB
                    simpa using hwfB
                  split at h
                  · cases h
                  · rename_i st3 hbody
                    cases h
                    exact pres_trans (⟨rfl, fun _ hd => Or.inl hd⟩ : Pres st
                        (newLabel env.fnName "while_end"
                          (newLabel env.fnName "while_cond" st).2).2)
                      (pres_trans (pres_emitL _ _)
                        (pres_trans (emitExpr_pres fuel env cond _ st1 hwfc hcond)
                          (pres_trans (pres_emitL _ _)
                            (pres_trans (pres_emitL _ _)
                              (pres_trans
                                (emitBlockGen_pres (emitStmt env retLabel fuel)
                                  (wfStmt env fuel) body _ st3
                                  (fun s2 a b hw hok => ih env retLabel s2 a b hw hok)
                                  hwfb hbody)
                                (pres_trans (pres_emitL _ _) (pres_emitL _ _)))))))
          rw [if_neg h6] at h
          cases h

/-- C9, counterexample: in `fn main` with body `return __f() + __g();`, the
stack-depth counter is 2 (not 0) at the `call __g` instruction — the left
operand of the `+` is live on the stack and a padding quadword was inserted. -/
theorem coatl_C9_counterexample :
    (emitFunctionBody env0 ".L_main_ret" 4 (Node.list [Node.atom "block",
        Node.list [Node.atom "return",
          Node.list [Node.atom "binary", Node.atom "add",
            Node.list [Node.atom "call", Node.atom "__f"],
            Node.list [Node.atom "call", Node.atom "__g"]]]])).map
      (fun st => (st.depth, st.callDepths)) = Except.ok (0, [0, 2]) ∧
    ¬ ((2 : Int) = 0) :=
  ⟨rfl, by decide⟩

/-- C9, amended: for every function body the backend emits whose calls all
pass as many arguments as the callee declares parameters, the stack-depth
counter is 0 at function exit (after emitting the whole body), and at every
emitted `call` instruction it is even (the stack is 16-byte aligned) — but
not necessarily 0: calls evaluated with operands live on the stack, or with
stack-resident arguments, run at a positive even depth.  The arity
restriction is necessary, since the pipeline never checks call arity: a
function body whose sole statement calls the 1-parameter `f` with two
arguments is emitted successfully, yet exits at depth 1 with its `call`
recorded at the odd depth 1 — exactly the body the restriction excludes. -/
theorem coatl_C9_depth_invariant :
    (∀ (env : Env) (retLabel : String) (fuel : Nat) (block : Node) (stOut : FnSt),
      wfBlock env fuel block = true →
      emitFunctionBody env retLabel fuel block = Except.ok stOut →
      stOut.depth = 0 ∧ ∀ d ∈ stOut.callDepths, d % 2 = 0) ∧
    (emitFunctionBody envMis ".L_main_ret" 3 (Node.list [Node.atom "block",
        Node.list [Node.atom "expr", Node.list [Node.atom "call", Node.atom "f",
          Node.list [Node.atom "int", Node.atom "1"],
          Node.list [Node.atom "int", Node.atom "2"]]]])).map
      (fun st => (st.depth, st.callDepths)) = Except.ok (1, [1]) ∧
    wfBlock envMis 3 (Node.list [Node.atom "block",
        Node.list [Node.atom "expr", Node.list [Node.atom "call", Node.atom "f",
          Node.list [Node.atom "int", Node.atom "1"],
          Node.list [Node.atom "int", Node.atom "2"]]]]) = false ∧
    ¬ ((1 : Int) = 0) ∧ ¬ ((1 : Int) % 2 = 0) := by
  refine ⟨?_, rfl, by decide, by decide, by decide⟩
  intro env retLabel fuel block stOut hwf h
  have hp := emitBlockGen_pres (emitStmt env retLabel fuel) (wfStmt env fuel) block
    ⟨[], 0, 0, []⟩ stOut
    (fun s a b hw hok => emitStmt_pres fuel env retLabel s a b hw hok) hwf h
  refine ⟨hp.1, fun d hd => ?_⟩
  rcases hp.2 d hd with hm | hm
  · simp at hm
  · exact hm

/-- C9, witness: a concrete body with one intrinsic call satisfies the
well-formedness premise, and the call is recorded at the even depth 0. -/
theorem coatl_C9_witness :
    wfBlock env0 2 (Node.list [Node.atom "block",
      Node.list [Node.atom "expr", Node.list [Node.atom "call", Node.atom "__f"]]]) = true ∧
    (0 : Int) % 2 = 0 :=
  ⟨by decide,
   (coatl_C9_depth_invariant.1 env0 ".L_main_ret" 2
      (Node.list [Node.atom "block",
        Node.list [Node.atom "expr", Node.list [Node.atom "call", Node.atom "__f"]]])
      ⟨["  call __f"], 0, 0, [0]⟩ (by decide) rfl).2 0 (by simp)⟩

/-- C5, counterexample: a call with seven `i32` arguments has
`stack_args = 1`; the padding rule fires (`0 + 1` is odd), and at the `call`
instruction the recorded stack depth is 2 — so
`(stack_depth + stack_args) mod 2 = 3 mod 2 ≠ 0` at the call, contrary to
the claim: the stack-resident argument is already counted in `stack_depth`. -/
theorem coatl_C5_counterexample :
    stackArgs env0 "__s" [Node.list [Node.atom "int", Node.atom "1"],
      Node.list [Node.atom "int", Node.atom "2"], Node.list [Node.atom "int", Node.atom "3"],
      Node.list [Node.atom "int", Node.atom "4"], Node.list [Node.atom "int", Node.atom "5"],
      Node.list [Node.atom "int", Node.atom "6"],
      Node.list [Node.atom "int", Node.atom "7"]] = 1 ∧
    (emitExpr env0 2 (Node.list [Node.atom "call", Node.atom "__s",
        Node.list [Node.atom "int", Node.atom "1"], Node.list [Node.atom "int", Node.atom "2"],
        Node.list [Node.atom "int", Node.atom "3"], Node.list [Node.atom "int", Node.atom "4"],
        Node.list [Node.atom "int", Node.atom "5"], Node.list [Node.atom "int", Node.atom "6"],
        Node.list [Node.atom "int", Node.atom "7"]]) st0).map
      (fun st => (st.depth, st.callDepths)) = Except.ok (0, [2]) ∧
    ¬ (((2 : Int) + 1) % 2 = 0) :=
  ⟨rfl, rfl, by decide⟩

/-- C5, amended: for every emitted call whose argument count matches the
callee's declared parameter count, with
`stack_args = max(0, n_int-6) + max(0, n_float-8)` computed from the
callee's declared parameter classes, the emitter pads the stack with one
quadword exactly when `(entry_depth + stack_args)` is odd; at the `call`
instruction the counter equals `entry_depth + pad + stack_args`, which is
even — so the stack is 16-byte aligned at such a call, but
`(stack_depth + stack_args)` at the call is even only when `stack_args`
is (the stack-resident arguments are already included in `stack_depth`).
The arity restriction is necessary, since the pipeline never checks call
arity: calling the 1-parameter `f` with two arguments is emitted
successfully, yet the `call` lands at the odd depth 1 (the extra pushed
argument is never popped) — exactly the call the restriction excludes. -/
theorem coatl_C5_call_padding_alignment :
    (∀ (emitE : Node → FnSt → Except String FnSt) (env : Env) (fn : String)
      (args : List Node) (st stOut : FnSt),
      (∀ a ∈ args, ∀ s1 s2, emitE a s1 = Except.ok s2 → Pres s1 s2) →
      arityOk env fn args = true →
      emitCallGen emitE env fn args st = Except.ok stOut →
      ∃ d, stOut.callDepths.getLast? = some d ∧
        d = st.depth +
            (if (st.depth + (stackArgs env fn args : Int)) % 2 = 1 then 1 else 0) +
            (stackArgs env fn args : Int) ∧
        d % 2 = 0 ∧ stOut.depth = st.depth) ∧
    emitCallGen (emitExpr envMis 1) envMis "f"
        [Node.list [Node.atom "int", Node.atom "1"],
         Node.list [Node.atom "int", Node.atom "2"]] st0 =
      Except.ok ⟨["  mov eax, 2", "  push rax", "  mov eax, 1", "  push rax",
                  "  pop rdi", "  call f"], 1, 0, [1]⟩ ∧
    arityOk envMis "f" [Node.list [Node.atom "int", Node.atom "1"],
      Node.list [Node.atom "int", Node.atom "2"]] = false ∧
    ¬ ((1 : Int) % 2 = 0) := by
  refine ⟨?_, rfl, by decide, by decide⟩
  intro emitE env fn args st stOut hE hA h
  have hspec := emitCallGen_spec emitE env fn args st stOut hE hA h
  exact ⟨_, hspec.2.2.1, rfl, hspec.2.2.2, hspec.1⟩

/-- C5, witness: a concrete zero-argument intrinsic call from depth 0: no
padding, the recorded call depth 0 is even, and the depth is restored. -/
theorem coatl_C5_witness :
    arityOk env0 "__z" ([] : List Node) = true ∧
    (0 : Int) % 2 = 0 ∧ FnSt.depth ⟨["  call __z"], 0, 0, [0]⟩ = 0 := by
  have h := coatl_C5_call_padding_alignment.1 (emitExpr env0 1) env0 "__z" [] st0
    ⟨["  call __z"], 0, 0, [0]⟩ (fun a ha => absurd ha (List.not_mem_nil a)) rfl rfl
  obtain ⟨d, hlast, hdv, heven, hdep⟩ := h
  refine ⟨rfl, ?_, hdep⟩
  have hd0 : d = 0 := by
    have := hlast
    simp at this
    omega
  rw [hd0] at heven
  exact heven
